import Mathlib

set_option maxHeartbeats 1000000

/-!
Shallow embedding of the LLGL Vulkan device-memory sub-allocator declared in
`sources/Renderer/Vulkan/Memory/VKDeviceMemoryManager.h`.  The repository
sources contain only the class declaration of `VKDeviceMemoryManager`
(members `Allocate`, `Release`, `FindMemoryType`, `AllocChunk`,
`FindOrAllocChunk`, fields `memoryProperties_`, `minAllocationSize_`,
`chunks_`); the bodies of these members and the chunk-level free-space
tracker live in files that are not part of the sources.  Their behaviour is
therefore modelled from the specification (sections 3, 4.1, 4.2 and 7),
while the constant `minAllocationSize_ = 1024*1024*10` and the constructor
signature are taken directly from the header.
-/

/-- A byte range `[off, off+size)` inside a chunk's address space. -/
structure Range where
  off : Nat
  size : Nat
deriving DecidableEq, Repr

/-- Whether the point `x` lies inside the range `r`. -/
def inRange (r : Range) (x : Nat) : Bool :=
  decide (r.off ≤ x ∧ x < r.off + r.size)

/-- How many ranges of `l` contain the point `x`. -/
def coverCount (l : List Range) (x : Nat) : Nat :=
  l.countP (fun r => inRange r x)

/-- Indicator of `r` at point `x`: one inside the range, zero outside. -/
def rangeInd (r : Range) (x : Nat) : Nat :=
  if inRange r x then 1 else 0

/-- Modelled from the spec: the first offset at or above `x` that is a
multiple of the alignment (section 4.2); alignment 0 is treated as no
alignment constraint. -/
def alignUp (x a : Nat) : Nat :=
  if a = 0 then x else (x + a - 1) / a * a

/-- Modelled from the spec: a free range qualifies for a request when its
aligned sub-range still has `size` bytes left inside the range
(section 4.2). -/
def fits (size align : Nat) (r : Range) : Bool :=
  decide (alignUp r.off align + size ≤ r.off + r.size)

/-- Modelled from the spec: best-fit scan of the tracker, choosing the
smallest qualifying free range, earlier ranges winning ties (section 4.2). -/
def pickBestFit (size align : Nat) : List Range → Option Range
  | [] => none
  | r :: rs =>
    match pickBestFit size align rs with
    | some r2 =>
      if fits size align r then
        (if r2.size < r.size then some r2 else some r)
      else some r2
    | none => if fits size align r then some r else none

/-- Replace the first occurrence of `r` in the tracker by the given list of
ranges. -/
def replaceRange : List Range → Range → List Range → List Range
  | [], _, _ => []
  | x :: xs, r, sub => if x = r then sub ++ xs else x :: replaceRange xs r sub

/-- Modelled from the spec: insert a freed range into the offset-ordered
tracker (section 4.2, Free). -/
def insertRange : List Range → Range → List Range
  | [], v => [v]
  | x :: xs, v => if v.off ≤ x.off then v :: x :: xs else x :: insertRange xs v

/-- Modelled from the spec: merge byte-adjacent neighbouring free ranges of
the offset-ordered tracker (section 4.2, Free coalescing). -/
def coalesce : List Range → List Range
  | [] => []
  | r :: rs =>
    match coalesce rs with
    | [] => [r]
    | r2 :: rs2 =>
      if r.off + r.size = r2.off then ⟨r.off, r.size + r2.size⟩ :: rs2
      else r :: r2 :: rs2

/-- Modelled from the spec: a chunk is one native memory allocation with a
byte capacity and a free-space tracker over its byte range (section 3).
The opaque native handle plays no part in the tracker algebra and is
omitted.  Source class: `VKDeviceMemory` (only referenced in the header). -/
structure Chunk where
  capacity : Nat
  free : List Range
deriving DecidableEq, Repr

/-- Modelled from the spec: chunk-level allocation (section 4.2): best-fit
pick of a qualifying free range, carving of the aligned sub-range, keeping
the up-to-two leftover pieces and dropping empty ones.  Returns the byte
offset and the updated chunk, or `none` on insufficient space. -/
def Chunk.Allocate (c : Chunk) (size align : Nat) : Option (Nat × Chunk) :=
  match pickBestFit size align c.free with
  | none => none
  | some r =>
    let a := alignUp r.off align
    let pieces : List Range :=
      (if r.off < a then [⟨r.off, a - r.off⟩] else []) ++
      (if a + size < r.off + r.size then
        [⟨a + size, r.off + r.size - (a + size)⟩] else [])
    some (a, ⟨c.capacity, replaceRange c.free r pieces⟩)

/-- Modelled from the spec: chunk-level free (section 4.2): insert the byte
range back into the tracker and coalesce byte-adjacent neighbours. -/
def Chunk.Free (c : Chunk) (off size : Nat) : Chunk :=
  ⟨c.capacity, coalesce (insertRange c.free ⟨off, size⟩)⟩

/-- A region handle: owning chunk index, byte offset, byte size and the
alignment it was carved with (sections 3 and 9: regions as
(chunk-index, offset, size) handles).  Source class:
`VKDeviceMemoryRegion` (only referenced in the header). -/
structure Region where
  chunkIdx : Nat
  off : Nat
  size : Nat
  alignment : Nat
deriving DecidableEq, Repr

/-- One entry of the manager's chunk collection: a chunk tagged with its
memory-type index. -/
structure ChunkEntry where
  memoryTypeIndex : Nat
  chunk : Chunk
deriving DecidableEq, Repr

/-- Modelled from the spec: the manager owns the chunk collection and the
device memory-type table captured at construction (section 3).  The `live`
list of outstanding region handles realises the release-validity check of
section 7 (`InvalidRelease`) and the manager invariant that every live
region's chunk is present.  Source class: `VKDeviceMemoryManager` with
fields `memoryProperties_` and `chunks_`. -/
structure Manager where
  memoryTypes : List Nat
  chunks : List ChunkEntry
  live : List Region
deriving DecidableEq, Repr

/-- The fixed chunk-growth floor, from the header field
`minAllocationSize_ = 1024*1024*10`; it is not a constructor parameter. -/
def minAllocationSize_ : Nat := 1024 * 1024 * 10

/-- Modelled from the spec: a freshly constructed manager holds the
immutable device memory-type table (each entry the property-flag mask of
one memory type, in table order) and owns no chunks yet (section 3). -/
def initManager (table : List Nat) : Manager := ⟨table, [], []⟩

/-- Modelled from the spec: scan of the memory-type table, the head of the
list carrying table index `i` (section 4.1, FindMemoryType). -/
def findMemoryTypeAux (bits props : Nat) : List Nat → Nat → Option Nat
  | [], _ => none
  | f :: fs, i =>
    if bits.testBit i && (f &&& props == props) then some i
    else findMemoryTypeAux bits props fs (i + 1)

/-- Modelled from the spec: first (lowest) memory-type index whose property
flags are a superset of `props` and whose bit is set in `bits`
(section 4.1).  Source member: `FindMemoryType` (declared only). -/
def FindMemoryType (table : List Nat) (bits props : Nat) : Option Nat :=
  findMemoryTypeAux bits props table 0

/-- Update the element at position `i` of a list, if present. -/
def updateAt {α : Type} : List α → Nat → (α → α) → List α
  | [], _, _ => []
  | x :: xs, 0, f => f x :: xs
  | x :: xs, n + 1, f => x :: updateAt xs n f

/-- Modelled from the spec: scan the existing chunks (the head of the list
carrying position `k`) for one of the resolved memory-type index whose
tracker satisfies the request (section 4.1, step 2).  Source member:
`FindOrAllocChunk` (declared only). -/
def findChunkFrom (ti size align : Nat) : List ChunkEntry → Nat → Option (Nat × Nat × Chunk)
  | [], _ => none
  | e :: es, k =>
    if e.memoryTypeIndex = ti then
      match e.chunk.Allocate size align with
      | some (off, c2) => some (k, off, c2)
      | none => findChunkFrom ti size align es (k + 1)
    else findChunkFrom ti size align es (k + 1)

/-- Manager-level allocation errors (section 7). -/
inductive AllocError where
  | noCompatibleMemoryType
  | deviceMemoryExhausted
deriving DecidableEq, Repr

/-- Manager-level release errors (section 7). -/
inductive ReleaseError where
  | invalidRelease
deriving DecidableEq, Repr

/-- Modelled from the spec: manager-level allocation (section 4.1): resolve
the memory-type index, try the existing chunks of that type, otherwise
create a fresh chunk of capacity `max size minAllocationSize_`, register it
and delegate to it.  Source member: `Allocate` (declared only). -/
def Manager.Allocate (m : Manager) (size align bits props : Nat) :
    Except AllocError (Region × Manager) :=
  match FindMemoryType m.memoryTypes bits props with
  | none => .error .noCompatibleMemoryType
  | some ti =>
    match findChunkFrom ti size align m.chunks 0 with
    | some (i, off, c2) =>
      .ok (⟨i, off, size, align⟩,
        ⟨m.memoryTypes, updateAt m.chunks i (fun e => ⟨e.memoryTypeIndex, c2⟩),
          ⟨i, off, size, align⟩ :: m.live⟩)
    | none =>
      match (⟨max size minAllocationSize_, [⟨0, max size minAllocationSize_⟩]⟩ : Chunk).Allocate size align with
      | some (off, c2) =>
        .ok (⟨m.chunks.length, off, size, align⟩,
          ⟨m.memoryTypes, m.chunks ++ [⟨ti, c2⟩],
            ⟨m.chunks.length, off, size, align⟩ :: m.live⟩)
      | none => .error .deviceMemoryExhausted

/-- Remove the first occurrence of `v` from a list of regions. -/
def removeFirst : List Region → Region → List Region
  | [], _ => []
  | x :: xs, v => if x = v then xs else x :: removeFirst xs v

/-- Modelled from the spec: manager-level release (section 4.1): a valid
handle's byte range is returned to its owning chunk's tracker with
coalescing and the handle is consumed; an unknown or already-released
handle is rejected with `InvalidRelease` and the state is untouched
(section 7).  Source member: `Release` (declared only). -/
def Manager.Release (m : Manager) (rg : Region) : Except ReleaseError Manager :=
  if rg ∈ m.live then
    .ok ⟨m.memoryTypes,
      updateAt m.chunks rg.chunkIdx
        (fun e => ⟨e.memoryTypeIndex, e.chunk.Free rg.off rg.size⟩),
      removeFirst m.live rg⟩
  else .error .invalidRelease

/-- One driver operation against the manager. -/
inductive Op where
  | alloc (size align bits props : Nat)
  | release (rg : Region)

/-- Run one operation; a failed operation leaves the state unchanged. -/
def Manager.step (m : Manager) : Op → Manager
  | .alloc s a b p =>
    match m.Allocate s a b p with
    | .ok x => x.2
    | .error _ => m
  | .release rg =>
    match m.Release rg with
    | .ok m2 => m2
    | .error _ => m

/-- Contribution of the live regions of chunk `i` to the cover of point `x`. -/
def liveCover (live : List Region) (i x : Nat) : Nat :=
  live.countP (fun rg => decide (rg.chunkIdx = i ∧ rg.off ≤ x ∧ x < rg.off + rg.size))

/-- The partition invariant of section 3: every live region's chunk exists
in the manager's collection, and in every chunk the free ranges together
with the live regions of that chunk cover each point of `[0, capacity)`
exactly once and cover no point beyond the capacity. -/
def ManagerInv (m : Manager) : Prop :=
  (∀ rg ∈ m.live, rg.chunkIdx < m.chunks.length) ∧
  ∀ i (h : i < m.chunks.length) (x : Nat),
    coverCount ((m.chunks.get ⟨i, h⟩).chunk.free) x + liveCover m.live i x =
      if x < (m.chunks.get ⟨i, h⟩).chunk.capacity then 1 else 0

/-- A memory-type index qualifies for a request when its bit is set in the
resource's `memoryTypeBits` mask and its property flags are a superset of
the requested flags (section 4.1). -/
def Qualifies (table : List Nat) (bits props i : Nat) : Prop :=
  bits.testBit i = true ∧ ∃ f, table.get? i = some f ∧ f &&& props = props

/-- A well-formed tracker is ordered by offset with a gap between any two
ranges: fully coalesced, pairwise disjoint (section 4.2). -/
def SSorted (l : List Range) : Prop :=
  List.Pairwise (fun u v => u.off + u.size < v.off) l

/-- A weakly ordered tracker: ordered by offset, disjoint, but possibly with
byte-adjacent neighbours (the intermediate state right after an insert). -/
def WSorted (l : List Range) : Prop :=
  List.Pairwise (fun u v => u.off + u.size ≤ v.off) l

/-- Every range of the tracker has a positive size. -/
def PosSizes (l : List Range) : Prop :=
  ∀ r ∈ l, 0 < r.size

/-- The byte range `[off, off+size)` overlaps no range of the tracker. -/
def DisjointFrom (off size : Nat) (l : List Range) : Prop :=
  ∀ r ∈ l, off + size ≤ r.off ∨ r.off + r.size ≤ off

/-- Total number of free bytes recorded by the chunk's tracker. -/
def totalFree (c : Chunk) : Nat :=
  (c.free.map Range.size).sum

/-! Basic facts about point cover counts. -/

theorem coverCount_nil (x : Nat) : coverCount [] x = 0 := rfl

theorem coverCount_cons (r : Range) (l : List Range) (x : Nat) :
    coverCount (r :: l) x = rangeInd r x + coverCount l x := by
  simp [coverCount, rangeInd, List.countP_cons]
  split <;> omega

theorem coverCount_append (l1 l2 : List Range) (x : Nat) :
    coverCount (l1 ++ l2) x = coverCount l1 x + coverCount l2 x := by
  simp [coverCount, List.countP_append]

theorem coverCount_pos (l : List Range) (x : Nat) (r : Range) (hr : r ∈ l)
    (hx : inRange r x = true) : 0 < coverCount l x := by
  have : 0 < l.countP (fun r => inRange r x) := List.countP_pos_iff.mpr ⟨r, hr, hx⟩
  simpa [coverCount] using this

theorem coverCount_eq_zero (l : List Range) (x : Nat)
    (h : ∀ r ∈ l, inRange r x = false) : coverCount l x = 0 := by
  simp only [coverCount, List.countP_eq_zero]
  intro r hr
  simp [h r hr]

/-! Facts about `alignUp`. -/

theorem le_alignUp (x a : Nat) : x ≤ alignUp x a := by
  unfold alignUp
  split
  · exact Nat.le_refl x
  · rename_i h
    have hpos : 0 < a := Nat.pos_of_ne_zero h
    have hdm : (x + a - 1) / a * a + (x + a - 1) % a = x + a - 1 :=
      Nat.div_add_mod' (x + a - 1) a
    have hlt : (x + a - 1) % a < a := Nat.mod_lt _ hpos
    omega

theorem alignUp_mod (x a : Nat) (h : a ≠ 0) : alignUp x a % a = 0 := by
  unfold alignUp
  simp [h, Nat.mul_mod_left]

theorem alignUp_zero_left (a : Nat) : alignUp 0 a = 0 := by
  unfold alignUp
  split
  · rfl
  · rename_i h
    have hpos : 0 < a := Nat.pos_of_ne_zero h
    have h1 : 0 + a - 1 < a := by omega
    rw [Nat.div_eq_of_lt h1, Nat.zero_mul]

theorem alignUp_one (x : Nat) : alignUp x 1 = x := by
  unfold alignUp
  simp

/-! Facts about the best-fit scan. -/

theorem pickBestFit_none (size align : Nat) (l : List Range)
    (h : pickBestFit size align l = none) :
    ∀ r ∈ l, fits size align r = false := by
  induction l with
  | nil => intro r hr; cases hr
  | cons x xs ih =>
    intro r hr
    cases h2 : pickBestFit size align xs with
    | none =>
      simp only [pickBestFit, h2] at h
      by_cases hf : fits size align x = true
      · rw [if_pos hf] at h; cases h
      · rcases List.mem_cons.mp hr with rfl | hm
        · simpa using hf
        · exact ih h2 r hm
    | some r2 =>
      simp only [pickBestFit, h2] at h
      by_cases hf : fits size align x = true
      · rw [if_pos hf] at h
        by_cases hlt : r2.size < x.size
        · rw [if_pos hlt] at h; cases h
        · rw [if_neg hlt] at h; cases h
      · rw [if_neg hf] at h; cases h

theorem pickBestFit_mem (size align : Nat) (l : List Range) (r : Range)
    (h : pickBestFit size align l = some r) :
    r ∈ l ∧ fits size align r = true := by
  induction l generalizing r with
  | nil => cases h
  | cons x xs ih =>
    cases h2 : pickBestFit size align xs with
    | none =>
      simp only [pickBestFit, h2] at h
      by_cases hf : fits size align x = true
      · rw [if_pos hf] at h
        have e := Option.some.inj h; subst e
        exact ⟨List.mem_cons_self _ _, hf⟩
      · rw [if_neg hf] at h; cases h
    | some r2 =>
      simp only [pickBestFit, h2] at h
      by_cases hf : fits size align x = true
      · rw [if_pos hf] at h
        by_cases hlt : r2.size < x.size
        · rw [if_pos hlt] at h
          have e := Option.some.inj h; subst e
          rcases ih _ h2 with ⟨hm, hfit⟩
          exact ⟨List.mem_cons_of_mem _ hm, hfit⟩
        · rw [if_neg hlt] at h
          have e := Option.some.inj h; subst e
          exact ⟨List.mem_cons_self _ _, hf⟩
      · rw [if_neg hf] at h
        have e := Option.some.inj h; subst e
        rcases ih _ h2 with ⟨hm, hfit⟩
        exact ⟨List.mem_cons_of_mem _ hm, hfit⟩

theorem pickBestFit_min (size align : Nat) (l : List Range) (r : Range)
    (h : pickBestFit size align l = some r) :
    ∀ r2 ∈ l, fits size align r2 = true → r.size ≤ r2.size := by
  induction l generalizing r with
  | nil => cases h
  | cons x xs ih =>
    intro r2 hr2 hfit2
    cases h2 : pickBestFit size align xs with
    | none =>
      have hnone := pickBestFit_none size align xs h2
      simp only [pickBestFit, h2] at h
      by_cases hf : fits size align x = true
      · rw [if_pos hf] at h
        have e := Option.some.inj h; subst e
        rcases List.mem_cons.mp hr2 with rfl | hm
        · exact Nat.le_refl _
        · rw [hnone r2 hm] at hfit2; cases hfit2
      · rw [if_neg hf] at h; cases h
    | some rb =>
      simp only [pickBestFit, h2] at h
      by_cases hf : fits size align x = true
      · rw [if_pos hf] at h
        by_cases hlt : rb.size < x.size
        · rw [if_pos hlt] at h
          have e := Option.some.inj h; subst e
          rcases List.mem_cons.mp hr2 with rfl | hm
          · exact Nat.le_of_lt hlt
          · exact ih _ h2 r2 hm hfit2
        · rw [if_neg hlt] at h
          have e := Option.some.inj h; subst e
          rcases List.mem_cons.mp hr2 with rfl | hm
          · exact Nat.le_refl _
          · have := ih rb h2 r2 hm hfit2
            omega
      · rw [if_neg hf] at h
        have e := Option.some.inj h; subst e
        rcases List.mem_cons.mp hr2 with rfl | hm
        · rw [hfit2] at hf; cases hf rfl
        · exact ih _ h2 r2 hm hfit2

theorem pickBestFit_isSome (size align : Nat) (l : List Range) (r : Range)
    (hr : r ∈ l) (hfit : fits size align r = true) :
    ∃ r2, pickBestFit size align l = some r2 := by
  induction l with
  | nil => cases hr
  | cons x xs ih =>
    cases h2 : pickBestFit size align xs with
    | none =>
      rcases List.mem_cons.mp hr with rfl | hm
      · simp only [pickBestFit, h2]
        rw [if_pos hfit]
        exact ⟨_, rfl⟩
      · rcases ih hm with ⟨r2, hr2⟩
        rw [h2] at hr2; cases hr2
    | some r2 =>
      simp only [pickBestFit, h2]
      by_cases hf : fits size align x = true
      · rw [if_pos hf]
        by_cases hlt : r2.size < x.size
        · rw [if_pos hlt]; exact ⟨_, rfl⟩
        · rw [if_neg hlt]; exact ⟨_, rfl⟩
      · rw [if_neg hf]; exact ⟨_, rfl⟩

/-! Point-cover accounting of the tracker operations. -/

theorem replaceRange_cover (l : List Range) (r : Range) (sub : List Range)
    (hr : r ∈ l) (x : Nat) :
    coverCount (replaceRange l r sub) x + rangeInd r x =
      coverCount l x + coverCount sub x := by
  induction l with
  | nil => cases hr
  | cons y ys ih =>
    by_cases he : y = r
    · subst he
      have hg : replaceRange (y :: ys) y sub = sub ++ ys := by
        simp [replaceRange]
      rw [hg, coverCount_append, coverCount_cons]
      omega
    · rcases List.mem_cons.mp hr with rfl | hm
      · cases he rfl
      · simp only [replaceRange, if_neg he]
        rw [coverCount_cons, coverCount_cons]
        have := ih hm
        omega

theorem insertRange_cover (l : List Range) (v : Range) (x : Nat) :
    coverCount (insertRange l v) x = rangeInd v x + coverCount l x := by
  induction l with
  | nil => simp [insertRange, coverCount_cons]
  | cons y ys ih =>
    simp only [insertRange]
    split
    · rw [coverCount_cons, coverCount_cons]
    · rw [coverCount_cons, coverCount_cons, ih]
      omega

theorem coalesce_cover (l : List Range) (x : Nat) :
    coverCount (coalesce l) x = coverCount l x := by
  induction l with
  | nil => rfl
  | cons y ys ih =>
    cases h2 : coalesce ys with
    | nil =>
      rw [h2] at ih
      have hg : coalesce (y :: ys) = [y] := by simp only [coalesce, h2]
      have h0 : coverCount ys x = 0 := by rw [← ih]; rfl
      rw [hg]
      simp only [coverCount_cons, coverCount_nil]
      omega
    | cons r2 rs2 =>
      rw [h2] at ih
      by_cases hadj : y.off + y.size = r2.off
      · have hg : coalesce (y :: ys) = ⟨y.off, y.size + r2.size⟩ :: rs2 := by
          simp only [coalesce, h2, if_pos hadj]
        have hmerge : rangeInd ⟨y.off, y.size + r2.size⟩ x = rangeInd y x + rangeInd r2 x := by
          simp only [rangeInd, inRange, decide_eq_true_eq]
          split_ifs <;> omega
        rw [hg]
        simp only [coverCount_cons] at ih ⊢
        omega
      · have hg : coalesce (y :: ys) = y :: r2 :: rs2 := by
          simp only [coalesce, h2, if_neg hadj]
        rw [hg]
        simp only [coverCount_cons] at ih ⊢
        omega

theorem chunkFree_cover (c : Chunk) (off size x : Nat) :
    coverCount (c.Free off size).free x =
      rangeInd ⟨off, size⟩ x + coverCount c.free x := by
  show coverCount (coalesce (insertRange c.free ⟨off, size⟩)) x = _
  rw [coalesce_cover, insertRange_cover]

theorem chunkFree_capacity (c : Chunk) (off size : Nat) :
    (c.Free off size).capacity = c.capacity := rfl

theorem pieces_cover (roff rsize a size x : Nat)
    (h1 : roff ≤ a) (h2 : a + size ≤ roff + rsize) :
    coverCount
      ((if roff < a then [⟨roff, a - roff⟩] else []) ++
       (if a + size < roff + rsize then
         [(⟨a + size, roff + rsize - (a + size)⟩ : Range)] else [])) x +
      rangeInd ⟨a, size⟩ x = rangeInd (⟨roff, rsize⟩ : Range) x := by
  rw [coverCount_append]
  by_cases hfr : roff < a <;> by_cases hbk : a + size < roff + rsize <;>
    simp only [hfr, hbk, if_true, if_false, ite_true, ite_false,
      coverCount_cons, coverCount_nil, rangeInd, inRange, decide_eq_true_eq] <;>
    split_ifs <;> simp_all <;> omega

theorem chunkAllocate_cover (c : Chunk) (size align off : Nat) (c2 : Chunk)
    (h : c.Allocate size align = some (off, c2)) :
    c2.capacity = c.capacity ∧
      ∀ x, coverCount c2.free x + rangeInd ⟨off, size⟩ x = coverCount c.free x := by
  unfold Chunk.Allocate at h
  cases hp : pickBestFit size align c.free with
  | none => rw [hp] at h; cases h
  | some r =>
    rw [hp] at h
    simp only [Option.some.injEq, Prod.mk.injEq] at h
    rcases h with ⟨hoff, hc2⟩
    rcases pickBestFit_mem size align c.free r hp with ⟨hmem, hfit⟩
    have hle : r.off ≤ alignUp r.off align := le_alignUp r.off align
    have hfit2 : alignUp r.off align + size ≤ r.off + r.size := by
      simpa [fits, decide_eq_true_eq] using hfit
    constructor
    · rw [← hc2]
    · intro x
      rw [← hc2]
      have hrep := replaceRange_cover c.free r
        ((if r.off < alignUp r.off align then [⟨r.off, alignUp r.off align - r.off⟩] else []) ++
         (if alignUp r.off align + size < r.off + r.size then
           [⟨alignUp r.off align + size, r.off + r.size - (alignUp r.off align + size)⟩] else []))
        hmem x
      have hpc := pieces_cover r.off r.size (alignUp r.off align) size x hle hfit2
      have hr : rangeInd (⟨r.off, r.size⟩ : Range) x = rangeInd r x := rfl
      rw [hr] at hpc
      rw [← hoff]
      simp only []
      omega

/-! List update and removal helpers. -/

theorem updateAt_length {α : Type} (l : List α) (i : Nat) (f : α → α) :
    (updateAt l i f).length = l.length := by
  induction l generalizing i with
  | nil => rfl
  | cons x xs ih =>
    cases i with
    | zero => rfl
    | succ n => simp [updateAt, ih]

theorem updateAt_get_ne {α : Type} (l : List α) (i : Nat) (f : α → α)
    (j : Nat) (hj : j < l.length) (hne : j ≠ i)
    (hj2 : j < (updateAt l i f).length) :
    (updateAt l i f).get ⟨j, hj2⟩ = l.get ⟨j, hj⟩ := by
  induction l generalizing i j with
  | nil => cases hj
  | cons x xs ih =>
    cases i with
    | zero =>
      cases j with
      | zero => cases hne rfl
      | succ m => simp [updateAt, List.get]
    | succ n =>
      cases j with
      | zero => simp [updateAt, List.get]
      | succ m =>
        simp only [updateAt, List.get]
        exact ih n m (by simpa using hj) (by omega) (by simpa [updateAt] using hj2)

theorem updateAt_get_eq {α : Type} (l : List α) (i : Nat) (f : α → α)
    (hi : i < l.length) (hi2 : i < (updateAt l i f).length) :
    (updateAt l i f).get ⟨i, hi2⟩ = f (l.get ⟨i, hi⟩) := by
  induction l generalizing i with
  | nil => cases hi
  | cons x xs ih =>
    cases i with
    | zero => rfl
    | succ n =>
      simp only [updateAt, List.get]
      exact ih n (by simpa using hi) (by simpa [updateAt] using hi2)

theorem removeFirst_countP (l : List Region) (v : Region) (p : Region → Bool)
    (hv : v ∈ l) :
    (removeFirst l v).countP p + (if p v then 1 else 0) = l.countP p := by
  induction l with
  | nil => cases hv
  | cons x xs ih =>
    by_cases he : x = v
    · subst he
      have hg : removeFirst (x :: xs) x = xs := by simp [removeFirst]
      rw [hg, List.countP_cons]
    · rcases List.mem_cons.mp hv with rfl | hm
      · cases he rfl
      · have hg : removeFirst (x :: xs) v = x :: removeFirst xs v := by
          simp [removeFirst, he]
        rw [hg, List.countP_cons, List.countP_cons]
        have := ih hm
        split <;> omega

theorem removeFirst_mem (l : List Region) (v w : Region)
    (h : w ∈ removeFirst l v) : w ∈ l := by
  induction l with
  | nil => simp [removeFirst] at h
  | cons x xs ih =>
    by_cases he : x = v
    · subst he
      have hg : removeFirst (x :: xs) x = xs := by simp [removeFirst]
      rw [hg] at h
      exact List.mem_cons_of_mem _ h
    · have hg : removeFirst (x :: xs) v = x :: removeFirst xs v := by
        simp [removeFirst, he]
      rw [hg] at h
      rcases List.mem_cons.mp h with rfl | hm
      · exact List.mem_cons_self _ _
      · exact List.mem_cons_of_mem _ (ih hm)

theorem removeFirst_not_mem (l : List Region) (v : Region)
    (h : l.count v = 1) : v ∉ removeFirst l v := by
  intro hmem
  have hvm : v ∈ l := by
    have : 0 < l.count v := by omega
    exact List.count_pos_iff.mp this
  have hc := removeFirst_countP l v (fun w => w == v) hvm
  have h3 : 0 < (removeFirst l v).count v := List.count_pos_iff.mpr hmem
  simp only [beq_self_eq_true, if_true] at hc
  have h1 : (removeFirst l v).countP (fun w => w == v) =
      (removeFirst l v).count v := rfl
  have h2 : l.countP (fun w => w == v) = l.count v := rfl
  rw [h1, h2] at hc
  omega

/-! Relating the chunk scan of the manager to positions in the chunk list. -/

theorem findChunkFrom_some (ti size align : Nat) (l : List ChunkEntry)
    (k i off : Nat) (c2 : Chunk)
    (h : findChunkFrom ti size align l k = some (i, off, c2)) :
    ∃ j, ∃ hj : j < l.length, i = k + j ∧
      (l.get ⟨j, hj⟩).memoryTypeIndex = ti ∧
      (l.get ⟨j, hj⟩).chunk.Allocate size align = some (off, c2) := by
  induction l generalizing k with
  | nil => cases h
  | cons e es ih =>
    by_cases hti : e.memoryTypeIndex = ti
    · cases ha : e.chunk.Allocate size align with
      | none =>
        have hg : findChunkFrom ti size align (e :: es) k =
            findChunkFrom ti size align es (k + 1) := by
          simp [findChunkFrom, hti, ha]
        rw [hg] at h
        rcases ih (k + 1) h with ⟨j, hj, hkj, hmt, hal⟩
        exact ⟨j + 1, by simpa using Nat.succ_lt_succ hj, by omega, hmt, hal⟩
      | some oc =>
        have hg : findChunkFrom ti size align (e :: es) k =
            some (k, oc.1, oc.2) := by
          simp [findChunkFrom, hti, ha]
        rw [hg] at h
        simp only [Option.some.injEq, Prod.mk.injEq] at h
        rcases h with ⟨hk, hoff, hc⟩
        refine ⟨0, by simp, by omega, hti, ?_⟩
        show e.chunk.Allocate size align = some (off, c2)
        rw [ha, ← hoff, ← hc]
    · have hg : findChunkFrom ti size align (e :: es) k =
          findChunkFrom ti size align es (k + 1) := by
        simp [findChunkFrom, hti]
      rw [hg] at h
      rcases ih (k + 1) h with ⟨j, hj, hkj, hmt, hal⟩
      exact ⟨j + 1, by simpa using Nat.succ_lt_succ hj, by omega, hmt, hal⟩

/-! Safe `get` over appended lists. -/

theorem get_append_left {α : Type} (l1 l2 : List α) (j : Nat) (hj : j < l1.length)
    (hj2 : j < (l1 ++ l2).length) :
    (l1 ++ l2).get ⟨j, hj2⟩ = l1.get ⟨j, hj⟩ := by
  induction l1 generalizing j with
  | nil => cases hj
  | cons x xs ih =>
    cases j with
    | zero => rfl
    | succ n => exact ih n (by simpa using hj) (by simpa using hj2)

theorem get_append_last {α : Type} (l1 : List α) (e : α)
    (h : l1.length < (l1 ++ [e]).length) :
    (l1 ++ [e]).get ⟨l1.length, h⟩ = e := by
  induction l1 with
  | nil => rfl
  | cons x xs ih => exact ih (by simpa using h)

/-! Live-cover accounting. -/

theorem liveCover_cons_self (ci off sz al : Nat) (live : List Region) (i x : Nat)
    (hi : ci = i) :
    liveCover (⟨ci, off, sz, al⟩ :: live) i x =
      rangeInd ⟨off, sz⟩ x + liveCover live i x := by
  subst hi
  simp only [liveCover, List.countP_cons, rangeInd, inRange, decide_eq_true_eq]
  split_ifs <;> simp_all <;> omega

theorem liveCover_cons_ne (ci off sz al : Nat) (live : List Region) (i x : Nat)
    (h : ci ≠ i) :
    liveCover (⟨ci, off, sz, al⟩ :: live) i x = liveCover live i x := by
  simp only [liveCover, List.countP_cons]
  have hd : decide ((⟨ci, off, sz, al⟩ : Region).chunkIdx = i ∧
      (⟨ci, off, sz, al⟩ : Region).off ≤ x ∧
      x < (⟨ci, off, sz, al⟩ : Region).off + (⟨ci, off, sz, al⟩ : Region).size) = false := by
    simp [h]
  rw [hd]
  simp

theorem liveCover_removeFirst_self (live : List Region) (rg : Region)
    (hm : rg ∈ live) (i x : Nat) (hi : rg.chunkIdx = i) :
    liveCover (removeFirst live rg) i x +
      rangeInd ⟨rg.off, rg.size⟩ x = liveCover live i x := by
  subst hi
  have hc := removeFirst_countP live rg
    (fun w => decide (w.chunkIdx = rg.chunkIdx ∧ w.off ≤ x ∧ x < w.off + w.size)) hm
  simp only [decide_eq_true_eq] at hc
  have he : (if True ∧ rg.off ≤ x ∧ x < rg.off + rg.size
      then 1 else 0) = rangeInd ⟨rg.off, rg.size⟩ x := by
    simp only [true_and, rangeInd, inRange, decide_eq_true_eq]
  rw [he] at hc
  exact hc

theorem liveCover_removeFirst_ne (live : List Region) (rg : Region)
    (hm : rg ∈ live) (i x : Nat) (h : rg.chunkIdx ≠ i) :
    liveCover (removeFirst live rg) i x = liveCover live i x := by
  have hc := removeFirst_countP live rg
    (fun w => decide (w.chunkIdx = i ∧ w.off ≤ x ∧ x < w.off + w.size)) hm
  simp only [decide_eq_true_eq] at hc
  have he : (if rg.chunkIdx = i ∧ rg.off ≤ x ∧ x < rg.off + rg.size
      then 1 else 0) = 0 := by
    simp [h]
  rw [he] at hc
  simpa [liveCover] using hc

theorem liveCover_zero (live : List Region) (i x : Nat)
    (h : ∀ rg ∈ live, rg.chunkIdx ≠ i) : liveCover live i x = 0 := by
  simp only [liveCover, List.countP_eq_zero]
  intro rg hrg
  simp [h rg hrg]

/-! Allocation from a fresh chunk always succeeds at offset 0. -/

theorem freshChunk_allocate (size align cap : Nat) (h : size ≤ cap) :
    (⟨cap, [⟨0, cap⟩]⟩ : Chunk).Allocate size align =
      some (0, ⟨cap, (if size < cap then [⟨size, cap - size⟩] else [])⟩) := by
  have hfit : fits size align ⟨0, cap⟩ = true := by
    simp [fits, alignUp_zero_left, h]
  have hpick : pickBestFit size align [⟨0, cap⟩] = some ⟨0, cap⟩ := by
    simp [pickBestFit, hfit]
  unfold Chunk.Allocate
  rw [hpick]
  simp [alignUp_zero_left, replaceRange]

/-! Inversion of a successful manager-level allocation: either an existing
chunk satisfied the request, or a fresh chunk of capacity
`max size minAllocationSize_` was appended. -/

theorem allocate_ok_inv (m : Manager) (size align bits props : Nat)
    (rg : Region) (m2 : Manager)
    (h : m.Allocate size align bits props = .ok (rg, m2)) :
    ∃ ti, FindMemoryType m.memoryTypes bits props = some ti ∧
      ((∃ i off c2, findChunkFrom ti size align m.chunks 0 = some (i, off, c2) ∧
          rg = ⟨i, off, size, align⟩ ∧
          m2 = ⟨m.memoryTypes,
            updateAt m.chunks i (fun e => ⟨e.memoryTypeIndex, c2⟩),
            (⟨i, off, size, align⟩ : Region) :: m.live⟩) ∨
       (findChunkFrom ti size align m.chunks 0 = none ∧
          rg = ⟨m.chunks.length, 0, size, align⟩ ∧
          m2 = ⟨m.memoryTypes,
            m.chunks ++ [⟨ti, ⟨max size minAllocationSize_,
              (if size < max size minAllocationSize_ then
                [⟨size, max size minAllocationSize_ - size⟩] else [])⟩⟩],
            (⟨m.chunks.length, 0, size, align⟩ : Region) :: m.live⟩)) := by
  unfold Manager.Allocate at h
  cases hf : FindMemoryType m.memoryTypes bits props with
  | none =>
    simp only [hf] at h
    exact Except.noConfusion h
  | some ti =>
    simp only [hf] at h
    refine ⟨ti, rfl, ?_⟩
    cases hfc : findChunkFrom ti size align m.chunks 0 with
    | some ioc =>
      obtain ⟨i, off, c2⟩ := ioc
      simp only [hfc, Except.ok.injEq, Prod.mk.injEq] at h
      left
      exact ⟨i, off, c2, rfl, h.1.symm, h.2.symm⟩
    | none =>
      simp only [hfc,
        freshChunk_allocate size align (max size minAllocationSize_)
          (Nat.le_max_left size minAllocationSize_),
        Except.ok.injEq, Prod.mk.injEq] at h
      right
      exact ⟨rfl, h.1.symm, h.2.symm⟩

/-- Build the manager invariant from its two components on explicit fields. -/
theorem managerInv_mk (mt : List Nat) (chunks : List ChunkEntry) (live : List Region)
    (h1 : ∀ rg ∈ live, rg.chunkIdx < chunks.length)
    (h2 : ∀ i (h : i < chunks.length) (x : Nat),
      coverCount (chunks.get ⟨i, h⟩).chunk.free x + liveCover live i x =
        if x < (chunks.get ⟨i, h⟩).chunk.capacity then 1 else 0) :
    ManagerInv ⟨mt, chunks, live⟩ :=
  ⟨h1, h2⟩

/-- A successful manager-level allocation preserves the partition invariant. -/
theorem managerInv_allocate (m : Manager) (size align bits props : Nat)
    (rg : Region) (m2 : Manager) (hInv : ManagerInv m)
    (h : m.Allocate size align bits props = .ok (rg, m2)) : ManagerInv m2 := by
  rcases allocate_ok_inv m size align bits props rg m2 h with ⟨ti, hf, hcase⟩
  rcases hcase with ⟨i, off, c2, hfc, hrg, hm2⟩ | ⟨hfc, hrg, hm2⟩
  · subst hm2
    rcases findChunkFrom_some ti size align m.chunks 0 i off c2 hfc with
      ⟨j, hj, hij, hmt, hal⟩
    have hij2 : i = j := by omega
    subst hij2
    rcases chunkAllocate_cover _ size align off c2 hal with ⟨hcap, hcov⟩
    apply managerInv_mk
    · intro rg2 hrg2
      rcases List.mem_cons.mp hrg2 with rfl | hm'
      · rw [updateAt_length]
        exact hj
      · rw [updateAt_length]
        exact hInv.1 rg2 hm'
    · intro k hk x
      have hk' : k < m.chunks.length := by rw [updateAt_length] at hk; exact hk
      by_cases hki : k = i
      · subst hki
        rw [updateAt_get_eq m.chunks k _ hk' hk]
        show coverCount c2.free x +
            liveCover ((⟨k, off, size, align⟩ : Region) :: m.live) k x =
          if x < c2.capacity then 1 else 0
        rw [liveCover_cons_self k off size align m.live k x rfl]
        have hbr : m.chunks.get ⟨k, hj⟩ = m.chunks.get ⟨k, hk'⟩ := rfl
        rw [hbr] at hcap hcov
        have hI := hInv.2 k hk' x
        have hcovx := hcov x
        rw [hcap]
        split_ifs at hI ⊢ <;> omega
      · rw [updateAt_get_ne m.chunks i _ k hk' hki hk]
        rw [liveCover_cons_ne i off size align m.live k x (fun e => hki e.symm)]
        exact hInv.2 k hk' x
  · subst hm2
    apply managerInv_mk
    · intro rg2 hrg2
      rcases List.mem_cons.mp hrg2 with rfl | hm'
      · show m.chunks.length < (m.chunks ++ [_]).length
        simp
      · have := hInv.1 rg2 hm'
        simp only [List.length_append, List.length_cons, List.length_nil]
        omega
    · intro k hk x
      have hklen : k < m.chunks.length + 1 := by simpa using hk
      by_cases hkl : k < m.chunks.length
      · rw [get_append_left m.chunks _ k hkl hk]
        rw [liveCover_cons_ne (m.chunks.length) 0 size align m.live k x
          (show m.chunks.length ≠ k by omega)]
        exact hInv.2 k hkl x
      · have hkeq : k = m.chunks.length := by omega
        subst hkeq
        rw [get_append_last m.chunks _ hk]
        show coverCount
            (if size < max size minAllocationSize_ then
              [⟨size, max size minAllocationSize_ - size⟩] else ([] : List Range)) x +
            liveCover ((⟨m.chunks.length, 0, size, align⟩ : Region) :: m.live)
              m.chunks.length x =
          if x < max size minAllocationSize_ then 1 else 0
        rw [liveCover_cons_self m.chunks.length 0 size align m.live m.chunks.length x rfl]
        rw [liveCover_zero m.live m.chunks.length x
          (fun rg2 hm' => by have := hInv.1 rg2 hm'; omega)]
        have hsc : size ≤ max size minAllocationSize_ := Nat.le_max_left _ _
        by_cases hlt : size < max size minAllocationSize_
        · rw [if_pos hlt, coverCount_cons, coverCount_nil]
          simp only [rangeInd, inRange, decide_eq_true_eq]
          split_ifs <;> omega
        · rw [if_neg hlt, coverCount_nil]
          simp only [rangeInd, inRange, decide_eq_true_eq]
          split_ifs <;> omega

/-- A successful manager-level release preserves the partition invariant. -/
theorem managerInv_release (m : Manager) (rg : Region) (m2 : Manager)
    (hInv : ManagerInv m) (h : m.Release rg = .ok m2) : ManagerInv m2 := by
  unfold Manager.Release at h
  by_cases hm : rg ∈ m.live
  · rw [if_pos hm] at h
    have hm2 := (Except.ok.inj h).symm
    subst hm2
    apply managerInv_mk
    · intro rg2 hrg2
      rw [updateAt_length]
      exact hInv.1 rg2 (removeFirst_mem _ _ _ hrg2)
    · intro k hk x
      have hk' : k < m.chunks.length := by rw [updateAt_length] at hk; exact hk
      by_cases hki : rg.chunkIdx = k
      · subst hki
        rw [updateAt_get_eq m.chunks rg.chunkIdx _ hk' hk]
        show coverCount ((m.chunks.get ⟨rg.chunkIdx, hk'⟩).chunk.Free rg.off rg.size).free x +
            liveCover (removeFirst m.live rg) rg.chunkIdx x =
          if x < ((m.chunks.get ⟨rg.chunkIdx, hk'⟩).chunk.Free rg.off rg.size).capacity
            then 1 else 0
        rw [chunkFree_cover, chunkFree_capacity]
        have hlc := liveCover_removeFirst_self m.live rg hm rg.chunkIdx x rfl
        have hI := hInv.2 rg.chunkIdx hk' x
        split_ifs at hI ⊢ <;> omega
      · rw [updateAt_get_ne m.chunks rg.chunkIdx _ k hk' (fun e => hki e.symm) hk]
        rw [liveCover_removeFirst_ne m.live rg hm k x hki]
        exact hInv.2 k hk' x
  · rw [if_neg hm] at h
    exact Except.noConfusion h

/-- One driver step preserves the partition invariant. -/
theorem managerInv_step (m : Manager) (op : Op) (hInv : ManagerInv m) :
    ManagerInv (m.step op) := by
  cases op with
  | alloc s a b p =>
    cases h : m.Allocate s a b p with
    | ok x =>
      have hg : m.step (.alloc s a b p) = x.2 := by
        simp only [Manager.step, h]
      rw [hg]
      exact managerInv_allocate m s a b p x.1 x.2 hInv (by rw [h])
    | error e =>
      have hg : m.step (.alloc s a b p) = m := by
        simp only [Manager.step, h]
      rw [hg]
      exact hInv
  | release rg =>
    cases h : m.Release rg with
    | ok m3 =>
      have hg : m.step (.release rg) = m3 := by
        simp only [Manager.step, h]
      rw [hg]
      exact managerInv_release m rg m3 hInv h
    | error e =>
      have hg : m.step (.release rg) = m := by
        simp only [Manager.step, h]
      rw [hg]
      exact hInv

/-- The invariant holds for a freshly constructed manager. -/
theorem managerInv_init (table : List Nat) : ManagerInv (initManager table) := by
  constructor
  · intro rg hrg
    cases hrg
  · intro i hi x
    exact absurd hi (by simp [initManager])

/-! Specification of the memory-type scan. -/

theorem findMemoryTypeAux_some_spec (bits props : Nat) (l : List Nat) (k i : Nat)
    (h : findMemoryTypeAux bits props l k = some i) :
    k ≤ i ∧ i - k < l.length ∧
    (bits.testBit i = true ∧
      ∃ f, l.get? (i - k) = some f ∧ f &&& props = props) ∧
    ∀ j, k ≤ j → j < i →
      ¬(bits.testBit j = true ∧
        ∃ f, l.get? (j - k) = some f ∧ f &&& props = props) := by
  induction l generalizing k with
  | nil => cases h
  | cons f fs ih =>
    by_cases hc : (bits.testBit k && (f &&& props == props)) = true
    · have hg : findMemoryTypeAux bits props (f :: fs) k = some k := by
        simp only [findMemoryTypeAux, if_pos hc]
      rw [hg] at h
      have e := Option.some.inj h
      subst e
      rcases (Bool.and_eq_true _ _).mp hc with ⟨h1, h2⟩
      refine ⟨Nat.le_refl _, by simp, ⟨h1, f, by simp, beq_iff_eq.mp h2⟩, ?_⟩
      intro j hj1 hj2
      omega
    · have hg : findMemoryTypeAux bits props (f :: fs) k =
          findMemoryTypeAux bits props fs (k + 1) := by
        simp only [findMemoryTypeAux, if_neg hc]
      rw [hg] at h
      rcases ih (k + 1) h with ⟨hki, hlen, ⟨hbit, fw, hget, hsup⟩, hmin⟩
      refine ⟨by omega, by simp; omega, ⟨hbit, fw, ?_, hsup⟩, ?_⟩
      · have he : i - k = (i - (k + 1)) + 1 := by omega
        rw [he]
        simpa using hget
      · intro j hj1 hj2 hq
        rcases hq with ⟨hqb, fq, hqget, hqsup⟩
        by_cases hjk : j = k
        · subst hjk
          have hz : j - j = 0 := by omega
          rw [hz] at hqget
          have : f = fq := by simpa using hqget
          subst this
          rw [hqb] at hc
          simp [hqsup] at hc
        · have hjk2 : k + 1 ≤ j := by omega
          apply hmin j hjk2 hj2
          refine ⟨hqb, fq, ?_, hqsup⟩
          have he : j - k = (j - (k + 1)) + 1 := by omega
          rw [he] at hqget
          simpa using hqget

theorem findMemoryTypeAux_none_spec (bits props : Nat) (l : List Nat) (k : Nat)
    (h : findMemoryTypeAux bits props l k = none) :
    ∀ j, ¬(bits.testBit (k + j) = true ∧
      ∃ f, l.get? j = some f ∧ f &&& props = props) := by
  induction l generalizing k with
  | nil => intro j hq; rcases hq with ⟨_, f, hget, _⟩; cases hget
  | cons f fs ih =>
    by_cases hc : (bits.testBit k && (f &&& props == props)) = true
    · have hg : findMemoryTypeAux bits props (f :: fs) k = some k := by
        simp only [findMemoryTypeAux, if_pos hc]
      rw [hg] at h
      cases h
    · have hg : findMemoryTypeAux bits props (f :: fs) k =
          findMemoryTypeAux bits props fs (k + 1) := by
        simp only [findMemoryTypeAux, if_neg hc]
      rw [hg] at h
      intro j hq
      rcases hq with ⟨hqb, fq, hqget, hqsup⟩
      cases j with
      | zero =>
        have : f = fq := by simpa using hqget
        subst this
        rw [Nat.add_zero] at hqb
        rw [hqb] at hc
        simp [hqsup] at hc
      | succ n =>
        apply ih (k + 1) h n
        refine ⟨?_, fq, by simpa using hqget, hqsup⟩
        have he : k + 1 + n = k + (n + 1) := by omega
        rw [he]
        exact hqb

theorem findMemoryType_some_spec (table : List Nat) (bits props i : Nat)
    (h : FindMemoryType table bits props = some i) :
    Qualifies table bits props i ∧ ∀ j, Qualifies table bits props j → i ≤ j := by
  rcases findMemoryTypeAux_some_spec bits props table 0 i h with
    ⟨_, hlen, ⟨hbit, f, hget, hsup⟩, hmin⟩
  rw [Nat.sub_zero] at hget
  refine ⟨⟨hbit, f, hget, hsup⟩, ?_⟩
  intro j hq
  by_contra hlt
  rcases hq with ⟨hqb, fq, hqget, hqsup⟩
  exact hmin j (Nat.zero_le j) (by omega) ⟨hqb, fq, by rw [Nat.sub_zero]; exact hqget, hqsup⟩

theorem findMemoryType_none_spec (table : List Nat) (bits props : Nat)
    (h : FindMemoryType table bits props = none) :
    ∀ i, ¬ Qualifies table bits props i := by
  intro i hq
  rcases hq with ⟨hb, f, hget, hsup⟩
  exact findMemoryTypeAux_none_spec bits props table 0 h i
    ⟨by rw [Nat.zero_add]; exact hb, f, hget, hsup⟩

theorem allocate_noCompatible (m : Manager) (size align bits props : Nat)
    (hf : FindMemoryType m.memoryTypes bits props = none) :
    m.Allocate size align bits props = .error .noCompatibleMemoryType := by
  unfold Manager.Allocate
  simp only [hf]

theorem step_alloc_error (m : Manager) (size align bits props : Nat)
    (hf : FindMemoryType m.memoryTypes bits props = none) :
    m.step (.alloc size align bits props) = m := by
  simp only [Manager.step, allocate_noCompatible m size align bits props hf]

/-- C1: for every memory-type table and every sequence of manager
operations (Allocate and Release, successful or failed), after every
operation each chunk's free ranges and the live regions of that chunk
together cover every point of `[0, capacity)` exactly once and no point
beyond; in particular live ranges never overlap each other, never overlap
a free range, and free ranges never overlap each other, and every live
region's chunk is present in the manager. -/
theorem c1_partition_invariant (table : List Nat) (ops : List Op) :
    ManagerInv (List.foldl Manager.step (initManager table) ops) := by
  have h : ∀ m : Manager, ManagerInv m →
      ManagerInv (List.foldl Manager.step m ops) := by
    induction ops with
    | nil => intro m hm; exact hm
    | cons op rest ih =>
      intro m hm
      exact ih (m.step op) (managerInv_step m op hm)
  exact h _ (managerInv_init table)

/-- C2: `FindMemoryType` returns the lowest table index whose bit is set in
`memoryTypeBits` and whose property flags are a superset of the requested
flags; when no index qualifies it returns nothing and `Allocate` fails with
`NoCompatibleMemoryType`, leaving the manager (and so its chunk collection)
unchanged. -/
theorem c2_find_memory_type_lowest (m : Manager) (bits props : Nat) :
    (∀ i, FindMemoryType m.memoryTypes bits props = some i →
      Qualifies m.memoryTypes bits props i ∧
        ∀ j, Qualifies m.memoryTypes bits props j → i ≤ j) ∧
    (FindMemoryType m.memoryTypes bits props = none →
      (∀ i, ¬ Qualifies m.memoryTypes bits props i) ∧
      ∀ size align, m.Allocate size align bits props =
          .error .noCompatibleMemoryType ∧
        m.step (.alloc size align bits props) = m) := by
  constructor
  · intro i hi
    exact findMemoryType_some_spec m.memoryTypes bits props i hi
  · intro hn
    refine ⟨findMemoryType_none_spec m.memoryTypes bits props hn, ?_⟩
    intro size align
    exact ⟨allocate_noCompatible m size align bits props hn,
      step_alloc_error m size align bits props hn⟩

/-- Witness for C2 on a concrete table: with types `[1, 7]`, request bits
`0b110` and flags `1`, index 1 is returned and is the least qualifying
index; with bits `8` and flags `8` nothing qualifies and `Allocate` fails
with `NoCompatibleMemoryType`, leaving the manager unchanged. -/
theorem c2_find_memory_type_lowest_witness :
    (Qualifies [1, 7] 6 1 1 ∧ ∀ j, Qualifies [1, 7] 6 1 j → 1 ≤ j) ∧
    (initManager [1, 7]).Allocate 100 16 8 8 =
        .error .noCompatibleMemoryType ∧
      (initManager [1, 7]).step (.alloc 100 16 8 8) = initManager [1, 7] :=
  ⟨(c2_find_memory_type_lowest (initManager [1, 7]) 6 1).1 1 rfl,
   ((c2_find_memory_type_lowest (initManager [1, 7]) 8 8).2 rfl).2 100 16⟩

/-- The memory-type table captured at construction is never modified by a
manager operation. -/
theorem step_memoryTypes (m : Manager) (op : Op) :
    (m.step op).memoryTypes = m.memoryTypes := by
  cases op with
  | alloc s a b p =>
    cases h : m.Allocate s a b p with
    | ok x =>
      have hg : m.step (.alloc s a b p) = x.2 := by
        simp only [Manager.step, h]
      rw [hg]
      rcases allocate_ok_inv m s a b p x.1 x.2 (by rw [h]) with ⟨ti, hf, hc⟩
      rcases hc with ⟨i, off, c2, _, _, hm2⟩ | ⟨_, _, hm2⟩ <;> rw [hm2]
    | error e =>
      have hg : m.step (.alloc s a b p) = m := by
        simp only [Manager.step, h]
      rw [hg]
  | release rg =>
    cases h : m.Release rg with
    | ok m3 =>
      have hg : m.step (.release rg) = m3 := by
        simp only [Manager.step, h]
      rw [hg]
      unfold Manager.Release at h
      by_cases hm : rg ∈ m.live
      · rw [if_pos hm] at h
        rw [← Except.ok.inj h]
      · rw [if_neg hm] at h
        exact Except.noConfusion h
    | error e =>
      have hg : m.step (.release rg) = m := by
        simp only [Manager.step, h]
      rw [hg]

/-- C9: `FindMemoryType` is a pure function of the immutable table and the
two input masks: no sequence of manager operations changes the captured
table, so the scan returns the same index before and after any operations
on the same manager, and the scan itself takes no state it could modify. -/
theorem c9_find_memory_type_pure (m : Manager) (ops : List Op) (bits props : Nat) :
    (List.foldl Manager.step m ops).memoryTypes = m.memoryTypes ∧
    FindMemoryType (List.foldl Manager.step m ops).memoryTypes bits props =
      FindMemoryType m.memoryTypes bits props := by
  have h : (List.foldl Manager.step m ops).memoryTypes = m.memoryTypes := by
    induction ops generalizing m with
    | nil => rfl
    | cons op rest ih =>
      show (List.foldl Manager.step (m.step op) rest).memoryTypes = m.memoryTypes
      rw [ih (m.step op), step_memoryTypes]
  exact ⟨h, by rw [h]⟩

/-- C3: a successful chunk-level allocation carves its region out of a free
range that qualifies for the request and whose leftover free space (and
size) is minimal among all qualifying free ranges of the tracker
(best-fit); concretely, on a tracker holding the released exact-size hole
`[0,100)` and the larger tail `[212,1024)`, a request of 100 bytes at
alignment 16 reuses offset 0. -/
theorem c3_best_fit (c : Chunk) (size align off : Nat) (c2 : Chunk)
    (h : c.Allocate size align = some (off, c2)) :
    (∃ r ∈ c.free, fits size align r = true ∧ off = alignUp r.off align ∧
      ∀ r2 ∈ c.free, fits size align r2 = true →
        r.size - size ≤ r2.size - size ∧ r.size ≤ r2.size) ∧
    (⟨1024, [⟨0, 100⟩, ⟨212, 812⟩]⟩ : Chunk).Allocate 100 16 =
      some (0, ⟨1024, [⟨212, 812⟩]⟩) := by
  constructor
  · unfold Chunk.Allocate at h
    cases hp : pickBestFit size align c.free with
    | none => rw [hp] at h; cases h
    | some r =>
      rw [hp] at h
      simp only [Option.some.injEq, Prod.mk.injEq] at h
      rcases pickBestFit_mem size align c.free r hp with ⟨hmem, hfit⟩
      refine ⟨r, hmem, hfit, h.1.symm, ?_⟩
      intro r2 hr2 hfit2
      have := pickBestFit_min size align c.free r hp r2 hr2 hfit2
      exact ⟨by omega, this⟩
  · decide

/-- Witness for C3: allocating 50 bytes at alignment 16 from the tracker
`[0,100) , [212,1024)` succeeds and the chosen range is a qualifying
best-fit range. -/
theorem c3_best_fit_witness :
    ∃ r ∈ ({capacity := 1024, free := [⟨0, 100⟩, ⟨212, 812⟩]} : Chunk).free,
      fits 50 16 r = true ∧ (0 : Nat) = alignUp r.off 16 ∧
      ∀ r2 ∈ ({capacity := 1024, free := [⟨0, 100⟩, ⟨212, 812⟩]} : Chunk).free,
        fits 50 16 r2 = true → r.size - 50 ≤ r2.size - 50 ∧ r.size ≤ r2.size :=
  (c3_best_fit ⟨1024, [⟨0, 100⟩, ⟨212, 812⟩]⟩ 50 16 0
    ⟨1024, [⟨50, 50⟩, ⟨212, 812⟩]⟩ (by decide)).1

/-- C4: when the memory-type index resolves but no existing chunk can
satisfy the request, `Allocate` appends exactly one fresh chunk whose
capacity is `max size minAllocationSize_` and serves the region from it at
offset 0; in particular a request larger than the floor gets a chunk sized
to the request. -/
theorem c4_new_chunk_sized_max (m : Manager) (size align bits props ti : Nat)
    (hf : FindMemoryType m.memoryTypes bits props = some ti)
    (hnone : findChunkFrom ti size align m.chunks 0 = none) :
    ∃ c2 : Chunk,
      m.Allocate size align bits props =
        .ok (⟨m.chunks.length, 0, size, align⟩,
          ⟨m.memoryTypes, m.chunks ++ [⟨ti, c2⟩],
            (⟨m.chunks.length, 0, size, align⟩ : Region) :: m.live⟩) ∧
      c2.capacity = max size minAllocationSize_ ∧
      (minAllocationSize_ ≤ size → c2.capacity = size) := by
  refine ⟨⟨max size minAllocationSize_,
    (if size < max size minAllocationSize_ then
      [⟨size, max size minAllocationSize_ - size⟩] else [])⟩, ?_, rfl, ?_⟩
  · unfold Manager.Allocate
    simp only [hf, hnone,
      freshChunk_allocate size align (max size minAllocationSize_)
        (Nat.le_max_left size minAllocationSize_)]
  · intro hge
    show max size minAllocationSize_ = size
    omega

/-- Witness for C4: a 20000000-byte request (larger than the 10 MiB floor)
on an empty manager with one device-local type creates one chunk sized to
the request. -/
theorem c4_new_chunk_sized_max_witness :
    ∃ c2 : Chunk,
      (initManager [7]).Allocate 20000000 16 1 1 =
        .ok (⟨(initManager [7]).chunks.length, 0, 20000000, 16⟩,
          ⟨(initManager [7]).memoryTypes,
            (initManager [7]).chunks ++ [⟨0, c2⟩],
            (⟨(initManager [7]).chunks.length, 0, 20000000, 16⟩ : Region) ::
              (initManager [7]).live⟩) ∧
      c2.capacity = max 20000000 minAllocationSize_ ∧
      (minAllocationSize_ ≤ 20000000 → c2.capacity = 20000000) :=
  c4_new_chunk_sized_max (initManager [7]) 20000000 16 1 1 0 rfl rfl

/-- C10: the chunk-growth floor is the fixed constant 10485760 bytes
(`1024*1024*10`), not a constructor parameter of the manager; every chunk
newly created by an allocation of size `s` is appended with capacity
exactly `max s 10485760`, hence at least `s` and at least 10485760. -/
theorem c10_min_allocation_size_constant :
    minAllocationSize_ = 10485760 ∧
    initManager = (fun table => ⟨table, [], []⟩) ∧
    ∀ (m : Manager) (size align bits props : Nat) (rg : Region) (m2 : Manager),
      m.Allocate size align bits props = .ok (rg, m2) →
      m.chunks.length < m2.chunks.length →
      ∃ ti c2, m2.chunks = m.chunks ++ [⟨ti, c2⟩] ∧
        c2.capacity = max size 10485760 ∧
        10485760 ≤ c2.capacity ∧ size ≤ c2.capacity := by
  refine ⟨rfl, rfl, ?_⟩
  intro m size align bits props rg m2 h hlt
  rcases allocate_ok_inv m size align bits props rg m2 h with ⟨ti, hf, hc⟩
  rcases hc with ⟨i, off, c2, hfc, hrg, hm2⟩ | ⟨hfc, hrg, hm2⟩
  · exfalso
    rw [hm2] at hlt
    simp only [updateAt_length] at hlt
    omega
  · refine ⟨ti, ⟨max size minAllocationSize_,
      (if size < max size minAllocationSize_ then
        [⟨size, max size minAllocationSize_ - size⟩] else [])⟩, ?_, ?_, ?_, ?_⟩
    · rw [hm2]
    · show max size minAllocationSize_ = max size 10485760
      rfl
    · show 10485760 ≤ max size minAllocationSize_
      have := Nat.le_max_right size minAllocationSize_
      simpa [minAllocationSize_] using this
    · show size ≤ max size minAllocationSize_
      exact Nat.le_max_left _ _

/-- Witness for C10: a 100-byte request on an empty manager creates one
chunk of capacity `max 100 10485760 = 10485760`. -/
theorem c10_min_allocation_size_constant_witness :
    ∃ ti c2, (⟨[7], [⟨0, ⟨10485760, [⟨100, 10485660⟩]⟩⟩],
        [⟨0, 0, 100, 16⟩]⟩ : Manager).chunks =
      (initManager [7]).chunks ++ [⟨ti, c2⟩] ∧
      c2.capacity = max 100 10485760 ∧
      10485760 ≤ c2.capacity ∧ 100 ≤ c2.capacity :=
  c10_min_allocation_size_constant.2.2 (initManager [7]) 100 16 1 1
    ⟨0, 0, 100, 16⟩
    ⟨[7], [⟨0, ⟨10485760, [⟨100, 10485660⟩]⟩⟩], [⟨0, 0, 100, 16⟩]⟩
    rfl (by decide)

/-- Decomposition of a successful chunk-level allocation: the returned
offset is the aligned start of the best-fit range and the capacity is kept. -/
theorem chunkAllocate_pick (c : Chunk) (size align off : Nat) (c2 : Chunk)
    (h : c.Allocate size align = some (off, c2)) :
    ∃ r, pickBestFit size align c.free = some r ∧
      off = alignUp r.off align ∧ c2.capacity = c.capacity := by
  unfold Chunk.Allocate at h
  cases hp : pickBestFit size align c.free with
  | none => rw [hp] at h; cases h
  | some r =>
    rw [hp] at h
    simp only [Option.some.injEq, Prod.mk.injEq] at h
    exact ⟨r, rfl, h.1.symm, by rw [← h.2]⟩

/-- In an invariant-satisfying manager every free range of every chunk stays
inside the chunk's capacity, provided the range is non-empty. -/
theorem free_range_within_capacity (m : Manager) (hInv : ManagerInv m)
    (i : Nat) (hi : i < m.chunks.length) (r : Range)
    (hr : r ∈ (m.chunks.get ⟨i, hi⟩).chunk.free) (hpos : 0 < r.size) :
    r.off + r.size ≤ (m.chunks.get ⟨i, hi⟩).chunk.capacity := by
  have hI := hInv.2 i hi (r.off + r.size - 1)
  have hcc : 0 < coverCount (m.chunks.get ⟨i, hi⟩).chunk.free (r.off + r.size - 1) :=
    coverCount_pos _ _ r hr (by simp [inRange]; omega)
  by_contra hgt
  rw [if_neg (by omega)] at hI
  omega

/-- C7: every region returned by a successful `Manager.Allocate` (with a
positive alignment and size) has an offset that is a multiple of the
requested alignment, records that alignment and size, and lies entirely
within the capacity of its owning chunk in the resulting manager. -/
theorem c7_alignment_and_bounds (m : Manager) (size align bits props : Nat)
    (rg : Region) (m2 : Manager)
    (hInv : ManagerInv m) (hal : 0 < align) (hsz : 0 < size)
    (h : m.Allocate size align bits props = .ok (rg, m2)) :
    rg.off % align = 0 ∧ rg.alignment = align ∧ rg.size = size ∧
    ∃ hc : rg.chunkIdx < m2.chunks.length,
      rg.off + rg.size ≤ (m2.chunks.get ⟨rg.chunkIdx, hc⟩).chunk.capacity := by
  rcases allocate_ok_inv m size align bits props rg m2 h with ⟨ti, hf, hcase⟩
  rcases hcase with ⟨i, off, c2, hfc, hrg, hm2⟩ | ⟨hfc, hrg, hm2⟩
  · subst hrg
    subst hm2
    rcases findChunkFrom_some ti size align m.chunks 0 i off c2 hfc with
      ⟨j, hj, hij, hmt, halj⟩
    have hij2 : i = j := by omega
    subst hij2
    rcases chunkAllocate_pick _ size align off c2 halj with ⟨r, hp, hoff, hcap⟩
    rcases pickBestFit_mem size align _ r hp with ⟨hmem, hfit⟩
    have hfit2 : alignUp r.off align + size ≤ r.off + r.size := by
      simpa [fits, decide_eq_true_eq] using hfit
    have hle : r.off ≤ alignUp r.off align := le_alignUp r.off align
    have hrpos : 0 < r.size := by omega
    have hwithin := free_range_within_capacity m hInv i hj r hmem hrpos
    refine ⟨?_, rfl, rfl, ?_⟩
    · show off % align = 0
      rw [hoff]
      exact alignUp_mod r.off align (by omega)
    · show ∃ hc : i <
          (updateAt m.chunks i
            (fun e => (⟨e.memoryTypeIndex, c2⟩ : ChunkEntry))).length,
        off + size ≤
          ((updateAt m.chunks i
            (fun e => (⟨e.memoryTypeIndex, c2⟩ : ChunkEntry))).get
              ⟨i, hc⟩).chunk.capacity
      have hlen : i < (updateAt m.chunks i
          (fun e => (⟨e.memoryTypeIndex, c2⟩ : ChunkEntry))).length := by
        rw [updateAt_length]
        exact hj
      refine ⟨hlen, ?_⟩
      rw [updateAt_get_eq m.chunks i _ hj hlen]
      show off + size ≤ c2.capacity
      rw [hcap]
      omega
  · subst hrg
    subst hm2
    refine ⟨by simp [Nat.zero_mod], rfl, rfl, ?_⟩
    show ∃ hc : m.chunks.length <
        (m.chunks ++ [(⟨ti, ⟨max size minAllocationSize_,
          (if size < max size minAllocationSize_ then
            [⟨size, max size minAllocationSize_ - size⟩] else [])⟩⟩ :
              ChunkEntry)]).length,
      0 + size ≤
        ((m.chunks ++ [(⟨ti, ⟨max size minAllocationSize_,
          (if size < max size minAllocationSize_ then
            [⟨size, max size minAllocationSize_ - size⟩] else [])⟩⟩ :
              ChunkEntry)]).get ⟨m.chunks.length, hc⟩).chunk.capacity
    have hlen : m.chunks.length <
        (m.chunks ++ [(⟨ti, ⟨max size minAllocationSize_,
          (if size < max size minAllocationSize_ then
            [⟨size, max size minAllocationSize_ - size⟩] else [])⟩⟩ :
              ChunkEntry)]).length := by
      simp
    refine ⟨hlen, ?_⟩
    rw [get_append_last m.chunks _ hlen]
    show 0 + size ≤ max size minAllocationSize_
    have := Nat.le_max_left size minAllocationSize_
    omega

/-- Witness for C7: the first allocation on an empty manager with one
memory type returns a region at an aligned offset inside its chunk. -/
theorem c7_alignment_and_bounds_witness :
    (⟨0, 0, 100, 16⟩ : Region).off % 16 = 0 ∧
    (⟨0, 0, 100, 16⟩ : Region).alignment = 16 ∧
    (⟨0, 0, 100, 16⟩ : Region).size = 100 ∧
    ∃ hc : (⟨0, 0, 100, 16⟩ : Region).chunkIdx <
        (⟨[7], [⟨0, ⟨10485760, [⟨100, 10485660⟩]⟩⟩],
          [⟨0, 0, 100, 16⟩]⟩ : Manager).chunks.length,
      (⟨0, 0, 100, 16⟩ : Region).off + (⟨0, 0, 100, 16⟩ : Region).size ≤
        ((⟨[7], [⟨0, ⟨10485760, [⟨100, 10485660⟩]⟩⟩],
          [⟨0, 0, 100, 16⟩]⟩ : Manager).chunks.get
            ⟨(⟨0, 0, 100, 16⟩ : Region).chunkIdx, hc⟩).chunk.capacity :=
  c7_alignment_and_bounds (initManager [7]) 100 16 1 1 ⟨0, 0, 100, 16⟩
    ⟨[7], [⟨0, ⟨10485760, [⟨100, 10485660⟩]⟩⟩], [⟨0, 0, 100, 16⟩]⟩
    (managerInv_init [7]) (by decide) (by decide) rfl

/-- Releasing a handle that is not outstanding is rejected and changes
nothing. -/
theorem release_not_live (m : Manager) (rg : Region) (hn : rg ∉ m.live) :
    m.Release rg = .error .invalidRelease ∧ m.step (.release rg) = m := by
  have he : m.Release rg = .error .invalidRelease := by
    unfold Manager.Release
    rw [if_neg hn]
  exact ⟨he, by simp only [Manager.step, he]⟩

/-- In an invariant-satisfying manager an outstanding handle with positive
size occurs exactly once in the live list. -/
theorem live_count_one (m : Manager) (rg : Region) (hInv : ManagerInv m)
    (hpos : 0 < rg.size) (hm : rg ∈ m.live) : m.live.count rg = 1 := by
  have hone : 0 < m.live.count rg := List.count_pos_iff.mpr hm
  by_contra hne
  have htwo : 2 ≤ m.live.count rg := by omega
  have hidx : rg.chunkIdx < m.chunks.length := hInv.1 rg hm
  have hcle : m.live.count rg ≤ liveCover m.live rg.chunkIdx rg.off := by
    have := List.countP_mono_left
      (l := m.live) (p := fun w => w == rg)
      (q := fun w => decide (w.chunkIdx = rg.chunkIdx ∧
        w.off ≤ rg.off ∧ rg.off < w.off + w.size))
      (by
        intro a ha hpa
        have : a = rg := by simpa using hpa
        subst this
        simp
        omega)
    exact this
  have hI := hInv.2 rg.chunkIdx hidx rg.off
  split_ifs at hI <;> omega

/-- C8: releasing a region handle that is not outstanding (foreign, or
already released) fails with `InvalidRelease` and leaves the manager
unchanged; in particular, after a successful release of a positive-size
handle on an invariant-satisfying manager, releasing the same handle again
fails with `InvalidRelease` and leaves the state unchanged. -/
theorem c8_double_release_rejected (m : Manager) (rg : Region) :
    (rg ∉ m.live →
      m.Release rg = .error .invalidRelease ∧ m.step (.release rg) = m) ∧
    (∀ m2, ManagerInv m → 0 < rg.size → m.Release rg = .ok m2 →
      m2.Release rg = .error .invalidRelease ∧
        m2.step (.release rg) = m2) := by
  constructor
  · exact release_not_live m rg
  · intro m2 hInv hpos hok
    unfold Manager.Release at hok
    by_cases hm : rg ∈ m.live
    · rw [if_pos hm] at hok
      have hm2 := (Except.ok.inj hok).symm
      subst hm2
      apply release_not_live
      show rg ∉ removeFirst m.live rg
      exact removeFirst_not_mem m.live rg (live_count_one m rg hInv hpos hm)
    · rw [if_neg hm] at hok
      exact Except.noConfusion hok

/-- Witness for C8: on a one-region manager, releasing the region succeeds
once and the second release of the same handle is rejected without change;
a foreign handle is rejected outright. -/
theorem c8_double_release_rejected_witness :
    ((⟨[7], [⟨0, ⟨1024, []⟩⟩], []⟩ : Manager).Release ⟨0, 0, 100, 16⟩ =
        .error .invalidRelease ∧
      (⟨[7], [⟨0, ⟨1024, []⟩⟩], []⟩ : Manager).step
        (.release ⟨0, 0, 100, 16⟩) = ⟨[7], [⟨0, ⟨1024, []⟩⟩], []⟩) ∧
    ((⟨[7], [⟨0, ⟨1024, [⟨0, 1024⟩]⟩⟩], []⟩ : Manager).Release
        ⟨0, 0, 100, 16⟩ = .error .invalidRelease ∧
      (⟨[7], [⟨0, ⟨1024, [⟨0, 1024⟩]⟩⟩], []⟩ : Manager).step
        (.release ⟨0, 0, 100, 16⟩) = ⟨[7], [⟨0, ⟨1024, [⟨0, 1024⟩]⟩⟩], []⟩) :=
  ⟨(c8_double_release_rejected ⟨[7], [⟨0, ⟨1024, []⟩⟩], []⟩
      ⟨0, 0, 100, 16⟩).1 (by decide),
   (c8_double_release_rejected
      ⟨[7], [⟨0, ⟨1024, [⟨100, 924⟩]⟩⟩], [⟨0, 0, 100, 16⟩]⟩
      ⟨0, 0, 100, 16⟩).2
      ⟨[7], [⟨0, ⟨1024, [⟨0, 1024⟩]⟩⟩], []⟩
      ⟨by intro rg2 hrg2; simp at hrg2; subst hrg2; decide,
       by
        intro i hi x
        simp only [List.length_cons, List.length_nil] at hi
        have hiz : i = 0 := by omega
        subst hiz
        show coverCount [⟨100, 924⟩] x +
            liveCover [⟨0, 0, 100, 16⟩] 0 x = if x < 1024 then 1 else 0
        rw [coverCount_cons, coverCount_nil]
        simp only [liveCover, List.countP_cons, List.countP_nil,
          rangeInd, inRange, decide_eq_true_eq]
        split_ifs <;> simp_all <;> omega⟩
      (by decide) rfl⟩

/-! Well-formed (sorted, coalesced) trackers. -/

theorem coalesce_cons_nil (v : Range) (l : List Range) (h : coalesce l = []) :
    coalesce (v :: l) = [v] := by
  simp only [coalesce, h]

theorem coalesce_cons_cons (v w : Range) (ws l : List Range)
    (h : coalesce l = w :: ws) :
    coalesce (v :: l) =
      if v.off + v.size = w.off then ⟨v.off, v.size + w.size⟩ :: ws
      else v :: w :: ws := by
  simp only [coalesce, h]

theorem coalesce_id (l : List Range) (hs : SSorted l) : coalesce l = l := by
  induction l with
  | nil => rfl
  | cons y ys ih =>
    rcases List.pairwise_cons.mp hs with ⟨hy, hys⟩
    have hc : coalesce ys = ys := ih hys
    cases ys with
    | nil => rfl
    | cons w ws =>
      rw [coalesce_cons_cons y w ws (w :: ws) hc,
        if_neg (Nat.ne_of_lt (hy w (List.mem_cons_self _ _)))]

theorem insertRange_head (l : List Range) (v : Range)
    (h : ∀ z ∈ l, v.off ≤ z.off) : insertRange l v = v :: l := by
  cases l with
  | nil => rfl
  | cons z zs =>
    simp only [insertRange]
    rw [if_pos (h z (List.mem_cons_self _ _))]

theorem insertRange_cons_lt (x : Range) (xs : List Range) (v : Range)
    (h : ¬ v.off ≤ x.off) : insertRange (x :: xs) v = x :: insertRange xs v := by
  simp only [insertRange]
  rw [if_neg h]

theorem insertRange_cons_ge (x : Range) (xs : List Range) (v : Range)
    (h : v.off ≤ x.off) : insertRange (x :: xs) v = v :: x :: xs := by
  simp only [insertRange]
  rw [if_pos h]

/-- Allocating from a well-formed tracker and freeing the same byte range
restores the tracker exactly: the insert lands between the two leftover
pieces and coalescing glues the three parts back into the original range. -/
theorem roundtrip_core (l : List Range) (r : Range) (size align : Nat)
    (hs : SSorted l) (hr : r ∈ l)
    (hfit : alignUp r.off align + size ≤ r.off + r.size) :
    coalesce (insertRange
      (replaceRange l r
        ((if r.off < alignUp r.off align then
            [⟨r.off, alignUp r.off align - r.off⟩] else []) ++
         (if alignUp r.off align + size < r.off + r.size then
            [⟨alignUp r.off align + size,
              r.off + r.size - (alignUp r.off align + size)⟩] else [])))
      ⟨alignUp r.off align, size⟩) = l := by
  induction l with
  | nil => cases hr
  | cons y ys ih =>
    rcases List.pairwise_cons.mp hs with ⟨hy, hys⟩
    have hle : r.off ≤ alignUp r.off align := le_alignUp r.off align
    by_cases he : y = r
    · subst he
      have hrep : replaceRange (y :: ys) y
          ((if y.off < alignUp y.off align then
              [⟨y.off, alignUp y.off align - y.off⟩] else []) ++
           (if alignUp y.off align + size < y.off + y.size then
              [⟨alignUp y.off align + size,
                y.off + y.size - (alignUp y.off align + size)⟩] else [])) =
          ((if y.off < alignUp y.off align then
              [⟨y.off, alignUp y.off align - y.off⟩] else []) ++
           (if alignUp y.off align + size < y.off + y.size then
              [⟨alignUp y.off align + size,
                y.off + y.size - (alignUp y.off align + size)⟩] else [])) ++ ys := by
        simp [replaceRange]
      rw [hrep]
      obtain ⟨al, hal⟩ : ∃ t, t = alignUp y.off align := ⟨_, rfl⟩
      rw [← hal] at hfit hle ⊢
      by_cases hfr : y.off < al <;> by_cases hbk : al + size < y.off + y.size
      · -- front and back pieces both present
        rw [if_pos hfr, if_pos hbk]
        simp only [List.cons_append, List.nil_append]
        rw [insertRange_cons_lt _ _ _ (show ¬ al ≤ y.off by omega)]
        rw [insertRange_cons_ge _ _ _ (show al ≤ al + size by omega)]
        have hc0 : coalesce
            (⟨al + size, y.off + y.size - (al + size)⟩ :: ys) =
            ⟨al + size, y.off + y.size - (al + size)⟩ :: ys := by
          apply coalesce_id
          refine List.pairwise_cons.mpr ⟨fun z hz => ?_, hys⟩
          have := hy z hz
          show al + size + (y.off + y.size - (al + size)) < z.off
          omega
        have hc1 : coalesce (⟨al, size⟩ ::
            ⟨al + size, y.off + y.size - (al + size)⟩ :: ys) =
            ⟨al, y.off + y.size - al⟩ :: ys := by
          rw [coalesce_cons_cons _ _ _ _ hc0]
          rw [if_pos (show al + size = al + size from rfl)]
          have h2 : size + (y.off + y.size - (al + size)) = y.off + y.size - al := by
            omega
          rw [h2]
        rw [coalesce_cons_cons _ _ _ _ hc1]
        rw [if_pos (show y.off + (al - y.off) = al by omega)]
        have hm2 : (⟨y.off, al - y.off + (y.off + y.size - al)⟩ : Range) = y := by
          have h2 : al - y.off + (y.off + y.size - al) = y.size := by omega
          rw [h2]
        rw [hm2]
      · -- only the front piece
        rw [if_pos hfr, if_neg hbk]
        simp only [List.append_nil, List.cons_append, List.nil_append]
        rw [insertRange_cons_lt _ _ _ (show ¬ al ≤ y.off by omega)]
        rw [insertRange_head ys ⟨al, size⟩
          (fun z hz => by have := hy z hz; show al ≤ z.off; omega)]
        have hc0 : coalesce (⟨al, size⟩ :: ys) = ⟨al, size⟩ :: ys := by
          apply coalesce_id
          refine List.pairwise_cons.mpr ⟨fun z hz => ?_, hys⟩
          have := hy z hz
          show al + size < z.off
          omega
        rw [coalesce_cons_cons _ _ _ _ hc0]
        rw [if_pos (show y.off + (al - y.off) = al by omega)]
        have hm2 : (⟨y.off, al - y.off + size⟩ : Range) = y := by
          have h2 : al - y.off + size = y.size := by omega
          rw [h2]
        rw [hm2]
      · -- only the back piece
        rw [if_neg hfr, if_pos hbk]
        simp only [List.cons_append, List.nil_append]
        rw [insertRange_cons_ge _ _ _ (show al ≤ al + size by omega)]
        have hc0 : coalesce
            (⟨al + size, y.off + y.size - (al + size)⟩ :: ys) =
            ⟨al + size, y.off + y.size - (al + size)⟩ :: ys := by
          apply coalesce_id
          refine List.pairwise_cons.mpr ⟨fun z hz => ?_, hys⟩
          have := hy z hz
          show al + size + (y.off + y.size - (al + size)) < z.off
          omega
        rw [coalesce_cons_cons _ _ _ _ hc0]
        rw [if_pos (show al + size = al + size from rfl)]
        have hm2 : (⟨al, size + (y.off + y.size - (al + size))⟩ : Range) = y := by
          have hoffeq : al = y.off := by omega
          have h2 : size + (y.off + y.size - (al + size)) = y.size := by omega
          rw [h2, hoffeq]
        rw [hm2]
      · -- exact fit: no pieces
        rw [if_neg hfr, if_neg hbk]
        have hveq : (⟨al, size⟩ : Range) = y := by
          have hoffeq : al = y.off := by omega
          have hszeq : size = y.size := by omega
          rw [hoffeq, hszeq]
        simp only [List.nil_append]
        rw [hveq, insertRange_head ys y (fun z hz => by have := hy z hz; omega)]
        exact coalesce_id (y :: ys) hs
    · have hrys : r ∈ ys := by
        rcases List.mem_cons.mp hr with h1 | h1
        · cases he h1.symm
        · exact h1
      have hry : y.off + y.size < r.off := hy r hrys
      have hrep : replaceRange (y :: ys) r
          ((if r.off < alignUp r.off align then
              [⟨r.off, alignUp r.off align - r.off⟩] else []) ++
           (if alignUp r.off align + size < r.off + r.size then
              [⟨alignUp r.off align + size,
                r.off + r.size - (alignUp r.off align + size)⟩] else [])) =
          y :: replaceRange ys r
          ((if r.off < alignUp r.off align then
              [⟨r.off, alignUp r.off align - r.off⟩] else []) ++
           (if alignUp r.off align + size < r.off + r.size then
              [⟨alignUp r.off align + size,
                r.off + r.size - (alignUp r.off align + size)⟩] else [])) := by
        simp only [replaceRange]
        rw [if_neg he]
      rw [hrep]
      rw [insertRange_cons_lt _ _ _
        (show ¬ alignUp r.off align ≤ y.off by omega)]
      cases ys with
      | nil => cases hrys
      | cons w ws =>
        have hyw : y.off + y.size < w.off := hy w (List.mem_cons_self _ _)
        rw [coalesce_cons_cons _ _ _ _ (ih hys hrys)]
        rw [if_neg (Nat.ne_of_lt hyw)]

/-- Full shape of a successful chunk-level allocation. -/
theorem chunkAllocate_shape (c : Chunk) (size align off : Nat) (c2 : Chunk)
    (h : c.Allocate size align = some (off, c2)) :
    ∃ r, pickBestFit size align c.free = some r ∧
      off = alignUp r.off align ∧ c2.capacity = c.capacity ∧
      c2.free = replaceRange c.free r
        ((if r.off < alignUp r.off align then
            [⟨r.off, alignUp r.off align - r.off⟩] else []) ++
         (if alignUp r.off align + size < r.off + r.size then
            [⟨alignUp r.off align + size,
              r.off + r.size - (alignUp r.off align + size)⟩] else [])) := by
  unfold Chunk.Allocate at h
  cases hp : pickBestFit size align c.free with
  | none => rw [hp] at h; cases h
  | some r =>
    rw [hp] at h
    simp only [Option.some.injEq, Prod.mk.injEq] at h
    exact ⟨r, rfl, h.1.symm, by rw [← h.2], by rw [← h.2]⟩

/-- C6: on a well-formed (offset-sorted, coalesced) tracker, allocating a
region and immediately freeing the same byte range restores the chunk
exactly: the tracker coalesces back to the original ranges and the total
free byte count is unchanged. -/
theorem c6_alloc_free_roundtrip (c : Chunk) (size align off : Nat) (c2 : Chunk)
    (hs : SSorted c.free)
    (h : c.Allocate size align = some (off, c2)) :
    c2.Free off size = c ∧ totalFree (c2.Free off size) = totalFree c := by
  rcases chunkAllocate_shape c size align off c2 h with ⟨r, hp, hoff, hcap, hfree⟩
  rcases pickBestFit_mem size align c.free r hp with ⟨hmem, hfit⟩
  have hfit2 : alignUp r.off align + size ≤ r.off + r.size := by
    simpa [fits, decide_eq_true_eq] using hfit
  have hmain : c2.Free off size = c := by
    show (⟨c2.capacity, coalesce (insertRange c2.free ⟨off, size⟩)⟩ : Chunk) = c
    rw [hcap, hfree, hoff]
    rw [roundtrip_core c.free r size align hs hmem hfit2]
  exact ⟨hmain, by rw [hmain]⟩

/-- Witness for C6: allocating 50 bytes at alignment 16 from the tracker
`[0,100) , [212,1024)` and freeing the returned range restores the chunk. -/
theorem c6_alloc_free_roundtrip_witness :
    (⟨1024, [⟨50, 50⟩, ⟨212, 812⟩]⟩ : Chunk).Free 0 50 =
      ⟨1024, [⟨0, 100⟩, ⟨212, 812⟩]⟩ ∧
    totalFree ((⟨1024, [⟨50, 50⟩, ⟨212, 812⟩]⟩ : Chunk).Free 0 50) =
      totalFree ⟨1024, [⟨0, 100⟩, ⟨212, 812⟩]⟩ :=
  c6_alloc_free_roundtrip ⟨1024, [⟨0, 100⟩, ⟨212, 812⟩]⟩ 50 16 0
    ⟨1024, [⟨50, 50⟩, ⟨212, 812⟩]⟩ (by unfold SSorted; decide) (by decide)

/-! Well-formedness is preserved by the free path (insert, then coalesce). -/

theorem mem_insertRange (l : List Range) (v w : Range)
    (h : w ∈ insertRange l v) : w = v ∨ w ∈ l := by
  induction l with
  | nil => simp only [insertRange] at h; simp at h; exact Or.inl h
  | cons x xs ih =>
    simp only [insertRange] at h
    split at h
    · rcases List.mem_cons.mp h with rfl | hm
      · exact Or.inl rfl
      · exact Or.inr hm
    · rcases List.mem_cons.mp h with rfl | hm
      · exact Or.inr (List.mem_cons_self _ _)
      · rcases ih hm with h1 | h1
        · exact Or.inl h1
        · exact Or.inr (List.mem_cons_of_mem _ h1)

theorem self_mem_insertRange (l : List Range) (v : Range) :
    v ∈ insertRange l v := by
  induction l with
  | nil => simp [insertRange]
  | cons x xs ih =>
    simp only [insertRange]
    split
    · exact List.mem_cons_self _ _
    · exact List.mem_cons_of_mem _ ih

theorem insert_posSizes (l : List Range) (v : Range)
    (hp : PosSizes l) (hv : 0 < v.size) : PosSizes (insertRange l v) := by
  intro w hw
  rcases mem_insertRange l v w hw with rfl | hm
  · exact hv
  · exact hp w hm

theorem insert_wsorted (l : List Range) (v : Range)
    (hp : PosSizes l) (hw : WSorted l)
    (hd : DisjointFrom v.off v.size l) : WSorted (insertRange l v) := by
  induction l with
  | nil => simp [insertRange, WSorted]
  | cons x xs ih =>
    rcases List.pairwise_cons.mp hw with ⟨hx, hxs⟩
    simp only [insertRange]
    split
    · rename_i hvx
      refine List.pairwise_cons.mpr ⟨?_, List.pairwise_cons.mpr ⟨hx, hxs⟩⟩
      intro z hz
      rcases List.mem_cons.mp hz with rfl | hm
      · rcases hd z (List.mem_cons_self _ _) with hca | hca
        · exact hca
        · have := hp z (List.mem_cons_self _ _)
          omega
      · rcases hd z (List.mem_cons_of_mem _ hm) with hca | hca
        · exact hca
        · have hgap := hx z hm
          have := hp z (List.mem_cons_of_mem _ hm)
          omega
    · rename_i hvx
      refine List.pairwise_cons.mpr ⟨?_, ?_⟩
      · intro z hz
        rcases mem_insertRange xs v z hz with rfl | hm
        · rcases hd x (List.mem_cons_self _ _) with hca | hca
          · omega
          · exact hca
        · exact hx z hm
      · exact ih (fun w hwm => hp w (List.mem_cons_of_mem _ hwm)) hxs
          (fun w hwm => hd w (List.mem_cons_of_mem _ hwm))

theorem coalesce_lbound (l : List Range) (c : Nat)
    (h : ∀ b ∈ l, c ≤ b.off) : ∀ b ∈ coalesce l, c ≤ b.off := by
  induction l with
  | nil => intro b hb; cases hb
  | cons y ys ih =>
    intro b hb
    have hys : ∀ z ∈ ys, c ≤ z.off := fun z hz => h z (List.mem_cons_of_mem _ hz)
    cases h2 : coalesce ys with
    | nil =>
      rw [coalesce_cons_nil y ys h2] at hb
      rcases List.mem_cons.mp hb with rfl | hm
      · exact h b (List.mem_cons_self _ _)
      · cases hm
    | cons w ws =>
      rw [coalesce_cons_cons y w ws ys h2] at hb
      have hcoal := ih hys
      rw [h2] at hcoal
      split at hb
      · rcases List.mem_cons.mp hb with rfl | hm
        · exact h y (List.mem_cons_self _ _)
        · exact hcoal b (List.mem_cons_of_mem _ hm)
      · rcases List.mem_cons.mp hb with rfl | hm
        · exact h b (List.mem_cons_self _ _)
        · exact hcoal b hm

theorem coalesce_posSizes (l : List Range) (hp : PosSizes l) :
    PosSizes (coalesce l) := by
  induction l with
  | nil => intro b hb; cases hb
  | cons y ys ih =>
    have hyp : 0 < y.size := hp y (List.mem_cons_self _ _)
    have hysp : PosSizes ys := fun z hz => hp z (List.mem_cons_of_mem _ hz)
    intro b hb
    cases h2 : coalesce ys with
    | nil =>
      rw [coalesce_cons_nil y ys h2] at hb
      rcases List.mem_cons.mp hb with rfl | hm
      · exact hyp
      · cases hm
    | cons w ws =>
      rw [coalesce_cons_cons y w ws ys h2] at hb
      have hcoal := ih hysp
      rw [h2] at hcoal
      split at hb
      · rcases List.mem_cons.mp hb with rfl | hm
        · show 0 < y.size + w.size
          omega
        · exact hcoal b (List.mem_cons_of_mem _ hm)
      · rcases List.mem_cons.mp hb with rfl | hm
        · exact hyp
        · exact hcoal b hm

theorem coalesce_sorted (l : List Range) (hw : WSorted l) :
    SSorted (coalesce l) := by
  induction l with
  | nil => exact List.Pairwise.nil
  | cons y ys ih =>
    rcases List.pairwise_cons.mp hw with ⟨hy, hys⟩
    have hIH := ih hys
    cases h2 : coalesce ys with
    | nil =>
      rw [coalesce_cons_nil y ys h2]
      exact List.pairwise_cons.mpr ⟨fun z hz => (nomatch hz), List.Pairwise.nil⟩
    | cons w ws =>
      rw [coalesce_cons_cons y w ws ys h2]
      rw [h2] at hIH
      rcases List.pairwise_cons.mp hIH with ⟨hwws, hws⟩
      have hyw : y.off + y.size ≤ w.off :=
        coalesce_lbound ys (y.off + y.size) hy w (by rw [h2]; exact List.mem_cons_self _ _)
      by_cases hadj : y.off + y.size = w.off
      · rw [if_pos hadj]
        refine List.pairwise_cons.mpr ⟨?_, hws⟩
        intro z hz
        have := hwws z hz
        show y.off + (y.size + w.size) < z.off
        omega
      · rw [if_neg hadj]
        refine List.pairwise_cons.mpr ⟨?_, hIH⟩
        intro z hz
        rcases List.mem_cons.mp hz with rfl | hm
        · omega
        · have := hwws z hm
          omega

/-! A contiguously covered interval of a well-formed tracker lies inside a
single free range. -/

theorem coverCount_pos_elim (l : List Range) (x : Nat)
    (h : 0 < coverCount l x) :
    ∃ r ∈ l, r.off ≤ x ∧ x < r.off + r.size := by
  have h2 : 0 < l.countP (fun r => inRange r x) := by simpa [coverCount] using h
  rcases List.countP_pos_iff.mp h2 with ⟨r, hr, hin⟩
  refine ⟨r, hr, ?_⟩
  simpa [inRange, decide_eq_true_eq] using hin

theorem covered_contiguous (l : List Range) (hs : SSorted l) (p q : Nat)
    (hpq : p < q)
    (hcov : ∀ x, p ≤ x → x < q → 0 < coverCount l x) :
    ∃ r ∈ l, r.off ≤ p ∧ q ≤ r.off + r.size := by
  induction l with
  | nil =>
    exfalso
    have := hcov p (Nat.le_refl p) hpq
    simp [coverCount] at this
  | cons y ys ih =>
    rcases List.pairwise_cons.mp hs with ⟨hy, hys⟩
    rcases coverCount_pos_elim _ _ (hcov p (Nat.le_refl p) hpq) with
      ⟨r0, hr0mem, hr0a, hr0b⟩
    by_cases hyp : y.off ≤ p ∧ p < y.off + y.size
    · by_cases hq : q ≤ y.off + y.size
      · exact ⟨y, List.mem_cons_self _ _, hyp.1, hq⟩
      · exfalso
        rcases coverCount_pos_elim _ _
          (hcov (y.off + y.size) (by omega) (by omega)) with
          ⟨r1, hr1mem, hr1a, hr1b⟩
        rcases List.mem_cons.mp hr1mem with rfl | hm
        · omega
        · have := hy r1 hm
          omega
    · rcases List.mem_cons.mp hr0mem with rfl | hr0ys
      · exact absurd ⟨hr0a, hr0b⟩ hyp
      · have hyend : y.off + y.size < r0.off := hy r0 hr0ys
        have hcov2 : ∀ x, p ≤ x → x < q → 0 < coverCount ys x := by
          intro x hx1 hx2
          have hcx := hcov x hx1 hx2
          rw [coverCount_cons] at hcx
          have hyx : rangeInd y x = 0 := by
            simp only [rangeInd, inRange, decide_eq_true_eq]
            rw [if_neg (by omega)]
          omega
        rcases ih hys hcov2 with ⟨r, hrm, hra, hrb⟩
        exact ⟨r, List.mem_cons_of_mem _ hrm, hra, hrb⟩

theorem disjoint_of_cover_zero (l : List Range) (off size : Nat)
    (hpos : PosSizes l) (hsz : 0 < size)
    (hz : ∀ x, off ≤ x → x < off + size → coverCount l x = 0) :
    DisjointFrom off size l := by
  intro r hr
  by_contra hcon
  rcases not_or.mp hcon with ⟨hc1, hc2⟩
  have hrpos := hpos r hr
  have hx1 : off ≤ max off r.off := Nat.le_max_left _ _
  have hx2 : max off r.off < off + size := by omega
  have hcc := hz (max off r.off) hx1 hx2
  have hpos2 : 0 < coverCount l (max off r.off) :=
    coverCount_pos l _ r hr
      (by simp only [inRange, decide_eq_true_eq]; constructor <;> omega)
  omega

/-- Freeing a disjoint positive range into a well-formed tracker keeps the
tracker well-formed and all sizes positive. -/
theorem free_wf (l : List Range) (off size : Nat) (hs : SSorted l)
    (hpos : PosSizes l) (hd : DisjointFrom off size l) (hsz : 0 < size) :
    SSorted (coalesce (insertRange l ⟨off, size⟩)) ∧
    PosSizes (coalesce (insertRange l ⟨off, size⟩)) := by
  constructor
  · apply coalesce_sorted
    exact insert_wsorted l ⟨off, size⟩ hpos
      (hs.imp (fun h => Nat.le_of_lt h)) hd
  · exact coalesce_posSizes _ (insert_posSizes l ⟨off, size⟩ hpos hsz)

/-- C5: freeing a byte range inserts it into the tracker (the point cover
grows by exactly that range) and coalesces byte-adjacent neighbours (the
tracker stays gap-separated, holding no two adjacent ranges); releasing two
byte-adjacent regions of a well-formed chunk therefore leaves their union
inside one single free range, from which an allocation of the combined size
succeeds. -/
theorem c5_adjacent_releases_coalesce (c : Chunk) (off1 s1 off2 s2 : Nat)
    (hs : SSorted c.free) (hpos : PosSizes c.free)
    (h1 : 0 < s1) (h2 : 0 < s2)
    (hd1 : DisjointFrom off1 s1 c.free) (hd2 : DisjointFrom off2 s2 c.free)
    (hadj : off2 = off1 + s1) :
    (∀ x, coverCount ((c.Free off1 s1).Free off2 s2).free x =
      rangeInd ⟨off1, s1⟩ x + rangeInd ⟨off2, s2⟩ x + coverCount c.free x) ∧
    SSorted ((c.Free off1 s1).Free off2 s2).free ∧
    (∃ r ∈ ((c.Free off1 s1).Free off2 s2).free,
      r.off ≤ off1 ∧ off1 + s1 + s2 ≤ r.off + r.size) ∧
    (∃ off3 c3, ((c.Free off1 s1).Free off2 s2).Allocate (s1 + s2) 1 =
      some (off3, c3)) := by
  have hcov1 : ∀ x, coverCount (c.Free off1 s1).free x =
      rangeInd ⟨off1, s1⟩ x + coverCount c.free x := chunkFree_cover c off1 s1
  have hfr1 : (c.Free off1 s1).free =
      coalesce (insertRange c.free ⟨off1, s1⟩) := rfl
  have hwf1 := free_wf c.free off1 s1 hs hpos hd1 h1
  have hd2' : DisjointFrom off2 s2 (c.Free off1 s1).free := by
    apply disjoint_of_cover_zero _ _ _ (by rw [hfr1]; exact hwf1.2) h2
    intro x hx1 hx2
    rw [hcov1 x]
    have hr1 : rangeInd ⟨off1, s1⟩ x = 0 := by
      simp only [rangeInd, inRange, decide_eq_true_eq]
      rw [if_neg (by omega)]
    have hcz : coverCount c.free x = 0 := by
      apply coverCount_eq_zero
      intro r hr
      have := hd2 r hr
      simp only [inRange, decide_eq_false_iff_not]
      omega
    omega
  have hcovF : ∀ x, coverCount ((c.Free off1 s1).Free off2 s2).free x =
      rangeInd ⟨off1, s1⟩ x + rangeInd ⟨off2, s2⟩ x + coverCount c.free x := by
    intro x
    rw [chunkFree_cover (c.Free off1 s1) off2 s2, hcov1 x]
    omega
  have hfr2 : ((c.Free off1 s1).Free off2 s2).free =
      coalesce (insertRange (c.Free off1 s1).free ⟨off2, s2⟩) := rfl
  have hwf2 := free_wf (c.Free off1 s1).free off2 s2
    (by rw [hfr1]; exact hwf1.1) (by rw [hfr1]; exact hwf1.2) hd2' h2
  have hsF : SSorted ((c.Free off1 s1).Free off2 s2).free := by
    rw [hfr2]; exact hwf2.1
  have hcontig : ∃ r ∈ ((c.Free off1 s1).Free off2 s2).free,
      r.off ≤ off1 ∧ off1 + s1 + s2 ≤ r.off + r.size := by
    apply covered_contiguous _ hsF off1 (off1 + s1 + s2) (by omega)
    intro x hx1 hx2
    rw [hcovF x]
    simp only [rangeInd, inRange, decide_eq_true_eq]
    split_ifs <;> omega
  refine ⟨hcovF, hsF, hcontig, ?_⟩
  rcases hcontig with ⟨r, hrm, hra, hrb⟩
  have hfit : fits (s1 + s2) 1 r = true := by
    simp only [fits, alignUp_one, decide_eq_true_eq]
    omega
  rcases pickBestFit_isSome (s1 + s2) 1 _ r hrm hfit with ⟨r2, hp⟩
  refine ⟨alignUp r2.off 1,
    ⟨((c.Free off1 s1).Free off2 s2).capacity,
      replaceRange ((c.Free off1 s1).Free off2 s2).free r2
        ((if r2.off < alignUp r2.off 1 then
            [⟨r2.off, alignUp r2.off 1 - r2.off⟩] else []) ++
         (if alignUp r2.off 1 + (s1 + s2) < r2.off + r2.size then
            [⟨alignUp r2.off 1 + (s1 + s2),
              r2.off + r2.size - (alignUp r2.off 1 + (s1 + s2))⟩] else []))⟩, ?_⟩
  unfold Chunk.Allocate
  rw [hp]

/-- Witness for C5: on a chunk with free tail `[300,1024)`, releasing the
adjacent regions `[0,100)` and `[100,300)` leaves one free range `[0,1024)`
covering both, and an allocation of the combined 300 bytes succeeds. -/
theorem c5_adjacent_releases_coalesce_witness :
    SSorted (((⟨1024, [⟨300, 724⟩]⟩ : Chunk).Free 0 100).Free 100 200).free ∧
    (∃ r ∈ (((⟨1024, [⟨300, 724⟩]⟩ : Chunk).Free 0 100).Free 100 200).free,
      r.off ≤ 0 ∧ 0 + 100 + 200 ≤ r.off + r.size) ∧
    (∃ off3 c3,
      (((⟨1024, [⟨300, 724⟩]⟩ : Chunk).Free 0 100).Free 100 200).Allocate
        (100 + 200) 1 = some (off3, c3)) :=
  ⟨(c5_adjacent_releases_coalesce ⟨1024, [⟨300, 724⟩]⟩ 0 100 100 200
      (by unfold SSorted; decide) (by unfold PosSizes; decide) (by decide)
      (by decide) (by unfold DisjointFrom; decide)
      (by unfold DisjointFrom; decide) rfl).2.1,
   (c5_adjacent_releases_coalesce ⟨1024, [⟨300, 724⟩]⟩ 0 100 100 200
      (by unfold SSorted; decide) (by unfold PosSizes; decide) (by decide)
      (by decide) (by unfold DisjointFrom; decide)
      (by unfold DisjointFrom; decide) rfl).2.2.1,
   (c5_adjacent_releases_coalesce ⟨1024, [⟨300, 724⟩]⟩ 0 100 100 200
      (by unfold SSorted; decide) (by unfold PosSizes; decide) (by decide)
      (by decide) (by unfold DisjointFrom; decide)
      (by unfold DisjointFrom; decide) rfl).2.2.2⟩
